import Mathlib

/-!
# Verification of the git-deps dependency detector

A shallow embedding of `src/git_deps/detector.py` (class `DependencyDetector`).
Python dicts are modelled as insertion-ordered association lists, the mutable
detector object as an explicit `Detector` state record, listener notification
as an event trace inside the state, fatal `abort` / uncaught exceptions as
`Except.error`, and the external git backend (diff, blame, merge-base, object
store) as an oracle record `Repo` supplied to every function.
-/

namespace GitDeps

/-- A git object reachable from a commit's tree: a tree with named entries,
or a blob.  Entries hold their objects directly (standing for the
`self.repo[entry.id]` dereference in `tree_lookup`). -/
inductive GitObj where
  | tree (entries : List (String × GitObj))
  | blob

/-- A commit handle: its hex id and the hex ids of its parents. -/
structure Commit where
  id : String
  parents : List String
deriving DecidableEq, Repr

/-- One line of a diff hunk, as consumed by `debug_hunk`. -/
structure DiffLine where
  origin : Char
  content : String
deriving DecidableEq, Repr

/-- A contiguous changed region in a two-commit diff (pygit2 hunk). -/
structure Hunk where
  old_start : Nat
  old_lines : Nat
  new_start : Nat
  new_lines : Nat
  lines : List DiffLine
deriving DecidableEq, Repr

/-- One file's part of a diff: `patch.delta.old_file.path` and its hunks. -/
structure Patch where
  old_file_path : String
  hunks : List Hunk
deriving DecidableEq, Repr

/-- One blame result: originating commit, originating line, final line,
number of contiguous lines covered. -/
structure BlameHunk where
  orig_commit_id : String
  orig_start_line_number : Nat
  final_start_line_number : Nat
  lines_in_hunk : Nat
deriving DecidableEq, Repr

/-- The options object consumed by the detector. -/
structure Options where
  recurse : Bool
  context_lines : Nat
  exclude_commits : Option (List String)
  pygit2_blame : Bool
deriving DecidableEq, Repr

/-- A Python value used as a key of the `self.commits` cache dict: either a
revision string, or a pygit2 commit object (which compares by its oid and is
never equal to a string). -/
inductive PyKey where
  | str (s : String)
  | commitObj (id : String)
deriving DecidableEq, Repr

/-- The external git backend, as a bundle of oracles. -/
structure Repo where
  /-- All commits of the repository (finite history). -/
  history : List Commit
  /-- `GitUtils.ref_commit`: resolve a revision string; `none` models
  `InvalidCommitish`. -/
  refResolve : String → Option Commit
  /-- pygit2 object-store lookup used for `dependent.parents[0]`. -/
  commitObjOf : String → Option Commit
  /-- `commit.tree`: the root tree of a commit id. -/
  treeOf : String → GitObj
  /-- `repo.diff(parent, child, context_lines)`, by commit ids. -/
  diff : String → String → Nat → List Patch
  /-- `repo.blame(path, newest_commit, min_line, max_line)`. -/
  blameNative : String → String → Nat → Nat → List BlameHunk
  /-- `blame_via_subprocess(path, rev, start_line, num_lines)`. -/
  blameSub : String → String → Nat → Nat → List BlameHunk
  /-- `git merge-base a b` output. -/
  mergeBase : String → String → String

/-- Evidence for one path of one edge: line number ↦ evidence string. -/
abbrev LineMap := List (Nat × String)

/-- Per-dependency evidence: path ↦ line evidence. -/
abbrev PathMap := List (String × LineMap)

/-- One dependent's edges: dependency hash ↦ per-path evidence. -/
abbrev DepMap := List (String × PathMap)

/-- The whole graph: dependent hash ↦ its edges. -/
abbrev DepGraph := List (String × DepMap)

instance : DecidableEq LineMap := inferInstance

instance : DecidableEq PathMap := inferInstance

instance : DecidableEq DepMap := inferInstance

instance : DecidableEq DepGraph := inferInstance

/-- The listener events of §6 of the spec, in firing order. -/
inductive Event where
  | new_commit (sha : String)
  | new_dependent (sha : String)
  | new_dependency (dependent dependency path : String) (line_num : Nat)
  | new_path (dependent dependency path : String) (line_num : Nat)
  | new_line (dependent dependency path : String) (line_num : Nat)
  | dependent_done (sha : String) (deps : DepMap)
  | all_done
deriving DecidableEq, Repr

/-- The mutable state of a `DependencyDetector` instance. -/
structure Detector where
  options : Options
  dependencies : DepGraph
  todo : List Commit
  todo_d : List String
  done : List String
  done_d : List String
  commits : List (PyKey × Commit)
  branch_contains_cache : List (String × List (String × Bool))
  events : List Event
deriving DecidableEq, Repr

/-- `DependencyDetector.__init__`: all containers start empty. -/
def initDetector (options : Options) : Detector :=
  { options := options, dependencies := [], todo := [], todo_d := [],
    done := [], done_d := [], commits := [], branch_contains_cache := [],
    events := [] }

/-- Dict lookup on an insertion-ordered association list. -/
def alget {α β : Type} [BEq α] (l : List (α × β)) (k : α) : Option β :=
  (l.find? (fun kv => kv.1 == k)).map (fun kv => kv.2)

/-- Dict key-membership test. -/
def alhas {α β : Type} [BEq α] (l : List (α × β)) (k : α) : Bool :=
  l.any (fun kv => kv.1 == k)

/-- Dict assignment `l[k] = v`: update in place if the key exists, otherwise
append (Python dicts preserve insertion order). -/
def alset {α β : Type} [BEq α] (l : List (α × β)) (k : α) (v : β) :
    List (α × β) :=
  if alhas l k then l.map (fun kv => if kv.1 == k then (k, v) else kv)
  else l ++ [(k, v)]

/-- Dict assignment `d[k] = True` on a dict used as a set of strings. -/
def dset (l : List String) (k : String) : List String :=
  if l.contains k then l else l ++ [k]

/-- `notify_listeners`: record the event in firing order. -/
def Detector.notify (st : Detector) (e : Event) : Detector :=
  { st with events := st.events ++ [e] }

/-- `seen_commit(rev)`: membership in the `self.commits` cache dict. -/
def seen_commit (st : Detector) (rev : PyKey) : Bool :=
  alhas st.commits rev

/-- `get_commit(rev)`: cached resolution of a revision string; raises
`InvalidCommitish` (modelled as an error) if the backend cannot resolve it. -/
def get_commit (repo : Repo) (st : Detector) (rev : String) :
    Except String (Commit × Detector) :=
  match alget st.commits (PyKey.str rev) with
  | some c => .ok (c, st)
  | none =>
    match repo.refResolve rev with
    | none => .error "InvalidCommitish"
    | some c =>
      .ok (c, { st with commits := alset st.commits (PyKey.str rev) c })

/-- `branch_contains(commit, branch)`: memoized `git merge-base` ancestry
test: true iff `merge-base sha1 branch_sha1` prints `sha1`. -/
def branch_contains (repo : Repo) (st : Detector) (commit : Commit)
    (branch : String) : Except String (Bool × Detector) := do
  let sha1 := commit.id
  let (branch_commit, st) ← get_commit repo st branch
  let branch_sha1 := branch_commit.id
  let st :=
    if alhas st.branch_contains_cache sha1 then st
    else { st with
           branch_contains_cache := alset st.branch_contains_cache sha1 [] }
  let row := (alget st.branch_contains_cache sha1).getD []
  match alget row branch_sha1 with
  | some memoized => pure (memoized, st)
  | none =>
    let out := repo.mergeBase sha1 branch_sha1
    let result := out == sha1
    let st := { st with
                branch_contains_cache :=
                  alset st.branch_contains_cache sha1
                    (alset row branch_sha1 result) }
    pure (result, st)

/-- The loop body of `is_excluded`, over the remaining excluded revisions. -/
def is_excluded_go (repo : Repo) (commit : Commit) :
    List String → Detector → Except String (Bool × Detector)
  | [], st => .ok (false, st)
  | exclude :: rest, st => do
    let (b, st) ← branch_contains repo st commit exclude
    if b then pure (true, st)
    else is_excluded_go repo commit rest st

/-- `is_excluded(commit)`: true iff some configured excluded revision's
commit "contains" this commit in the `branch_contains` sense. -/
def is_excluded (repo : Repo) (st : Detector) (commit : Commit) :
    Except String (Bool × Detector) :=
  match st.options.exclude_commits with
  | none => .ok (false, st)
  | some excludes => is_excluded_go repo commit excludes st

/-- Python `target_path.split("/")`: split at every slash, keeping empty
segments (structurally recursive so that concrete paths evaluate). -/
def splitSlashGo : List Char → List Char → List String
  | [], acc => [String.mk acc.reverse]
  | c :: cs, acc =>
    if c = '/' then String.mk acc.reverse :: splitSlashGo cs []
    else splitSlashGo cs (c :: acc)

/-- `target_path.split("/")`. -/
def splitSlash (s : String) : List String := splitSlashGo s.data []

/-- The segment walk of `tree_lookup`. -/
def tree_lookup_go : List String → GitObj → Option GitObj
  | [], obj => some obj
  | dirent :: rest, obj =>
    match obj with
    | .tree entries =>
      match alget entries dirent with
      | some child => tree_lookup_go rest child
      | none => none
    | .blob => none

/-- `tree_lookup(target_path, commit)`: navigate to the tree or blob named by
the path, one directory segment at a time; `none` when a segment is absent or
an intermediate object is not a tree. -/
def tree_lookup (repo : Repo) (target_path : String) (commit : Commit) :
    Option GitObj :=
  tree_lookup_go (splitSlash target_path) (repo.treeOf commit.id)

/-- Python truthiness of `tree_lookup`'s result as used in the guard
`if not self.tree_lookup(path, parent)`: `None` is falsy, a pygit2 `Tree` is
falsy iff it has no entries (`len == 0`), a `Blob` is truthy. -/
def gitObjTruthy : Option GitObj → Bool
  | none => false
  | some (.tree entries) => !entries.isEmpty
  | some .blob => true

/-- `run_blame(hunk, parent, path)`: one of the two interchangeable blame
strategies, selected by `options.pygit2_blame`. -/
def run_blame (repo : Repo) (opts : Options) (hunk : Hunk) (parent : Commit)
    (path : String) : List BlameHunk :=
  if opts.pygit2_blame then
    repo.blameNative path parent.id hunk.old_start
      (hunk.old_start + hunk.old_lines - 1)
  else
    repo.blameSub path parent.id hunk.old_start hunk.old_lines

/-- `register_new_dependent`: first-time registration of a dependent key in
the graph, firing `new_dependent`. -/
def register_new_dependent (st : Detector) (dependent : Commit)
    (dependent_sha1 : String) : Detector :=
  if alhas st.dependencies dependent_sha1 then st
  else
    let st := { st with dependencies := alset st.dependencies dependent_sha1 [] }
    st.notify (.new_dependent dependent.id)

/-- `process_new_dependency`: fires `new_commit` when the dependency has not
been "seen" (cache membership of the commit object), creates the edge slot,
fires `new_dependency`, and enqueues the dependency when it is not queued,
not done, not itself a registered dependent, and `options.recurse` is set. -/
def process_new_dependency (st : Detector) (dependent : Commit)
    (dependent_sha1 : String) (dependency : Commit) (dependency_sha1 : String)
    (path : String) (line_num : Nat) : Except String Detector := do
  let st ←
    if !(seen_commit st (PyKey.commitObj dependency.id)) then do
      let st := st.notify (.new_commit dependency.id)
      match alget st.dependencies dependent_sha1 with
      | none => Except.error "KeyError: dependencies[dependent_sha1]"
      | some depmap =>
        pure { st with
               dependencies :=
                 alset st.dependencies dependent_sha1
                   (alset depmap dependency_sha1 []) }
    else pure st
  let st := st.notify (.new_dependency dependent.id dependency.id path line_num)
  if st.todo_d.contains dependency_sha1 then pure st
  else if st.done_d.contains dependency_sha1 then pure st
  else if !(alhas st.dependencies dependency_sha1) then
    if st.options.recurse then
      pure { st with todo := st.todo ++ [dependency],
                     todo_d := dset st.todo_d dependency.id }
    else pure st
  else pure st

/-- Write a path map back through the two levels of the nested graph dict
(the Python code mutates the shared inner dict in place). -/
def writeDeps (st : Detector) (dependent_sha1 dependency_sha1 : String)
    (pm : PathMap) : Detector :=
  let depmap := (alget st.dependencies dependent_sha1).getD []
  let deps := alset st.dependencies dependent_sha1 (alset depmap dependency_sha1 pm)
  { st with dependencies := deps }

/-- `record_dependency_source`: store one piece of `(path, line)` evidence for
an edge, firing `new_path` on a fresh path and `new_line` on the stored line;
a line number already present for the same triple is a fatal `abort`. -/
def record_dependency_source (st : Detector) (parent : Commit)
    (dependent : Commit) (dependent_sha1 : String) (dependency : Commit)
    (dependency_sha1 : String) (path : String) (line_num : Nat)
    (line : String) : Except String Detector :=
  match alget st.dependencies dependent_sha1 with
  | none => Except.error "KeyError: dependencies[dependent_sha1]"
  | some depmap =>
    match alget depmap dependency_sha1 with
    | none => Except.error "KeyError: dep_sources"
    | some dep_sources =>
      let pathIsNew := !(alhas dep_sources path)
      let dep_sources :=
        if pathIsNew then alset dep_sources path [] else dep_sources
      let st :=
        if pathIsNew then
          (writeDeps st dependent_sha1 dependency_sha1 dep_sources).notify
            (.new_path dependent.id dependency.id path line_num)
        else st
      let lm := (alget dep_sources path).getD []
      if alhas lm line_num then
        Except.error ("abort: line " ++ toString line_num ++
          " already found when blaming " ++ parent.id ++ ":" ++ path)
      else
        let st := writeDeps st dependent_sha1 dependency_sha1
          (alset dep_sources path (alset lm line_num line))
        Except.ok (st.notify (.new_line dependent.id dependency.id path line_num))

/-- `process_blame_hunk`: resolve the blamed commit, track its lines in
`line_to_culprit`, drop it if excluded, otherwise register the edge on first
sight and record the evidence. -/
def process_blame_hunk (repo : Repo) (st : Detector) (dependent : Commit)
    (dependent_sha1 : String) (parent : Commit) (path : String)
    (blame_hunk : BlameHunk) (line_to_culprit : List (Nat × String)) :
    Except String (Detector × List (Nat × String)) := do
  let orig_line_num := blame_hunk.orig_start_line_number
  let line_num := blame_hunk.final_start_line_number
  let dependency_sha1 := blame_hunk.orig_commit_id
  let line_representation :=
    dependency_sha1 ++ " " ++ toString orig_line_num ++ " " ++ toString line_num
  let (dependency, st) ← get_commit repo st dependency_sha1
  let line_to_culprit :=
    (List.range blame_hunk.lines_in_hunk).foldl
      (fun m i => alset m (line_num + i) dependency.id) line_to_culprit
  let (excluded, st) ← is_excluded repo st dependency
  if excluded then
    pure (st, line_to_culprit)
  else do
    let st ←
      match alget st.dependencies dependent_sha1 with
      | none => Except.error "KeyError: dependencies[dependent_sha1]"
      | some depmap =>
        if !(alhas depmap dependency_sha1) then
          process_new_dependency st dependent dependent_sha1 dependency
            dependency_sha1 path line_num
        else pure st
    let st ← record_dependency_source st parent dependent dependent_sha1
      dependency dependency_sha1 path line_num line_representation
    pure (st, line_to_culprit)

/-- The line walk of `debug_hunk`: reads `line_to_culprit[line_num]` for every
non-added line (a missing key is an uncaught `KeyError`). -/
def debug_hunk_lines (line_to_culprit : List (Nat × String)) :
    Nat → List DiffLine → Except String Unit
  | _, [] => .ok ()
  | line_num, l :: rest =>
    if l.content.trimRight == "\n\\ No newline at end of file" then .ok ()
    else if l.origin == '+' then debug_hunk_lines line_to_culprit line_num rest
    else
      match alget line_to_culprit line_num with
      | none => .error "KeyError: line_to_culprit"
      | some _ => debug_hunk_lines line_to_culprit (line_num + 1) rest

/-- `debug_hunk`: diagnostic walk over the hunk's lines. -/
def debug_hunk (hunk : Hunk) (line_to_culprit : List (Nat × String)) :
    Except String Unit :=
  debug_hunk_lines line_to_culprit hunk.old_start hunk.lines

/-- The blame-hunk loop of `blame_diff_hunk`. -/
def process_blame_hunks (repo : Repo) (dependent : Commit)
    (dependent_sha1 : String) (parent : Commit) (path : String) :
    List BlameHunk → Detector → List (Nat × String) →
    Except String (Detector × List (Nat × String))
  | [], st, ltc => .ok (st, ltc)
  | bh :: rest, st, ltc => do
    let (st, ltc) ←
      process_blame_hunk repo st dependent dependent_sha1 parent path bh ltc
    process_blame_hunks repo dependent dependent_sha1 parent path rest st ltc

/-- `blame_diff_hunk`: skip the hunk when the path does not resolve (truthily)
in the parent's tree; otherwise blame it, register the dependent, and process
every blame hunk. -/
def blame_diff_hunk (repo : Repo) (st : Detector) (dependent parent : Commit)
    (path : String) (hunk : Hunk) : Except String Detector := do
  if !(gitObjTruthy (tree_lookup repo path parent)) then
    pure st
  else do
    let blame := run_blame repo st.options hunk parent path
    let dependent_sha1 := dependent.id
    let st := register_new_dependent st dependent dependent_sha1
    let (st, line_to_culprit) ←
      process_blame_hunks repo dependent dependent_sha1 parent path blame st []
    match debug_hunk hunk line_to_culprit with
    | .error e => Except.error e
    | .ok _ => pure st

/-- The hunk loop of `find_dependencies_with_parent` for one patch. -/
def blame_hunks_in_patch (repo : Repo) (dependent parent : Commit)
    (path : String) : List Hunk → Detector → Except String Detector
  | [], st => .ok st
  | hunk :: rest, st => do
    let st ← blame_diff_hunk repo st dependent parent path hunk
    blame_hunks_in_patch repo dependent parent path rest st

/-- The patch loop of `find_dependencies_with_parent`. -/
def find_dependencies_with_parent_go (repo : Repo) (dependent parent : Commit) :
    List Patch → Detector → Except String Detector
  | [], st => .ok st
  | patch :: rest, st => do
    let st ← blame_hunks_in_patch repo dependent parent patch.old_file_path
      patch.hunks st
    find_dependencies_with_parent_go repo dependent parent rest st

/-- `find_dependencies_with_parent(dependent, parent)`: diff against the
parent and blame every hunk of every patch. -/
def find_dependencies_with_parent (repo : Repo) (st : Detector)
    (dependent parent : Commit) : Except String Detector :=
  find_dependencies_with_parent_go repo dependent parent
    (repo.diff parent.id dependent.id st.options.context_lines) st

/-- The body of one worklist iteration after the pop: fire `new_commit`,
analyze against the first parent when one exists, mark done, and fire
`dependent_done` with the commit's accumulated edge map. -/
def process_popped (repo : Repo) (st : Detector) (dependent : Commit) :
    Except String Detector := do
  let dependent_sha1 := dependent.id
  let st := st.notify (.new_commit dependent.id)
  let st ←
    match dependent.parents with
    | [] => pure st
    | p :: _ =>
      match repo.commitObjOf p with
      | none => Except.error "missing parent object"
      | some parent => find_dependencies_with_parent repo st dependent parent
  let st := { st with done := st.done ++ [dependent_sha1],
                      done_d := dset st.done_d dependent_sha1 }
  let dependencies := (alget st.dependencies dependent_sha1).getD []
  pure (st.notify (.dependent_done dependent.id dependencies))

/-- The outcome of the worklist loop: normal completion, a fatal abort or
uncaught exception, or fuel exhaustion (never reached from a real run, as
proved below). -/
inductive RunResult where
  | ok (st : Detector)
  | fatal (msg : String)
  | outOfFuel (st : Detector)
deriving DecidableEq, Repr

/-- The `while self.todo` loop of `find_dependencies`: pop the head of the
queue, drop it if already done, otherwise process it; fire `all_done` when
the queue empties. -/
def todo_loop (repo : Repo) : Nat → Detector → RunResult
  | 0, st => .outOfFuel st
  | fuel + 1, st =>
    match st.todo with
    | [] => .ok (st.notify .all_done)
    | dependent :: rest =>
      let dependent_sha1 := dependent.id
      if st.todo_d.contains dependent_sha1 then
        let st := { st with todo := rest,
                            todo_d := st.todo_d.erase dependent_sha1 }
        if st.done_d.contains dependent_sha1 then
          todo_loop repo fuel st
        else
          match process_popped repo st dependent with
          | .error e => .fatal e
          | .ok st => todo_loop repo fuel st
      else .fatal "KeyError: todo_d"

/-- `find_dependencies(dependent_rev, recurse=None)`: default the dead
`recurse` parameter, resolve the seed (aborting on failure), enqueue it, and
run the worklist loop. -/
def find_dependencies (repo : Repo) (st : Detector) (dependent_rev : String)
    (recurse : Option Bool) (fuel : Nat) : RunResult :=
  let _recurse := recurse.getD st.options.recurse
  match get_commit repo st dependent_rev with
  | .error _ => .fatal "abort: InvalidCommitish"
  | .ok (dependent, st) =>
    let st := { st with todo := st.todo ++ [dependent],
                        todo_d := dset st.todo_d dependent.id }
    todo_loop repo fuel st

/-- `edges()`: the nested list comprehension of the source, one inner list
per dependent key. -/
def edges (st : Detector) : List (List (String × String)) :=
  st.dependencies.map (fun dep =>
    dep.2.map (fun dependency => (dep.1, dependency.1)))

/-- Modelled from the spec: `edges() → sequence of (dependent_hash,
dependency_hash) pairs, one per recorded dependency key ... a flattened view
for graph consumers`. -/
def edges_spec (st : Detector) : List (String × String) :=
  st.dependencies.flatMap (fun dep =>
    dep.2.map (fun dependency => (dep.1, dependency.1)))

/-- Count occurrences of one event in a trace. -/
def countEvent (events : List Event) (e : Event) : Nat :=
  events.countP (fun x => decide (x = e))

/-- The dependents announced as finished, in firing order. -/
def doneEvents (events : List Event) : List String :=
  events.filterMap (fun e =>
    match e with
    | .dependent_done s _ => some s
    | _ => none)

section AssocLemmas

variable {α β : Type} [BEq α] [LawfulBEq α]

omit [LawfulBEq α] in
theorem alhas_nil (k : α) : alhas ([] : List (α × β)) k = false := rfl

theorem alhas_iff (l : List (α × β)) (k : α) :
    alhas l k = true ↔ ∃ v, (k, v) ∈ l := by
  simp only [alhas, List.any_eq_true, beq_iff_eq]
  constructor
  · rintro ⟨x, hx, rfl⟩
    exact ⟨x.2, hx⟩
  · rintro ⟨v, hv⟩
    exact ⟨(k, v), hv, rfl⟩

theorem alhas_iff_mem_keys (l : List (α × β)) (k : α) :
    alhas l k = true ↔ k ∈ l.map Prod.fst := by
  rw [alhas_iff]
  constructor
  · rintro ⟨v, hv⟩
    exact List.mem_map.2 ⟨(k, v), hv, rfl⟩
  · intro h
    rcases List.mem_map.1 h with ⟨x, hx, he⟩
    exact ⟨x.2, by rw [← he, Prod.mk.eta]; exact hx⟩

omit [LawfulBEq α] in
theorem alget_eq_none_iff (l : List (α × β)) (k : α) :
    alget l k = none ↔ alhas l k = false := by
  unfold alget alhas
  rcases hf : List.find? (fun kv => kv.1 == k) l with _ | kv
  · rw [hf]
    rw [List.find?_eq_none] at hf
    exact iff_of_true rfl (List.any_eq_false.2 hf)
  · rw [hf]
    have hmem := List.mem_of_find?_eq_some hf
    have hp := List.find?_some hf
    constructor
    · intro h
      simp at h
    · intro h
      exact absurd hp (List.any_eq_false.1 h kv hmem)

omit [LawfulBEq α] in
theorem alget_isSome_of_alhas {l : List (α × β)} {k : α}
    (h : alhas l k = true) : ∃ v, alget l k = some v := by
  have hne : alget l k ≠ none := by
    intro hn
    rw [alget_eq_none_iff] at hn
    rw [hn] at h
    cases h
  exact Option.ne_none_iff_exists'.1 hne

omit [LawfulBEq α] in
theorem alhas_of_alget {l : List (α × β)} {k : α} {v : β}
    (h : alget l k = some v) : alhas l k = true := by
  by_contra hc
  rw [Bool.not_eq_true] at hc
  rw [← alget_eq_none_iff] at hc
  rw [h] at hc
  cases hc

theorem find?_of_alget {l : List (α × β)} {k : α} {v : β}
    (h : alget l k = some v) :
    List.find? (fun kv => kv.1 == k) l = some (k, v) := by
  unfold alget at h
  rcases hf : List.find? (fun kv => kv.1 == k) l with _ | kv
  · rw [hf] at h
    simp at h
  · rw [hf] at h
    have hp : kv.1 = k := by simpa using List.find?_some hf
    have hv : kv.2 = v := by simpa using h
    obtain ⟨a, b⟩ := kv
    simp only at hp hv
    rw [hf, hp, hv]

theorem alget_mem {l : List (α × β)} {k : α} {v : β}
    (h : alget l k = some v) : (k, v) ∈ l :=
  List.mem_of_find?_eq_some (find?_of_alget h)

omit [LawfulBEq α] in
theorem mem_alset (l : List (α × β)) (k : α) (v : β) (x : α × β)
    (h : x ∈ alset l k v) : x ∈ l ∨ x = (k, v) := by
  unfold alset at h
  by_cases hh : alhas l k = true
  · rw [if_pos hh] at h
    rcases List.mem_map.1 h with ⟨y, hy, he⟩
    by_cases hk : y.1 == k
    · right
      rw [if_pos hk] at he
      exact he.symm
    · left
      rw [if_neg hk] at he
      exact he ▸ hy
  · rw [if_neg hh] at h
    rcases List.mem_append.1 h with h1 | h1
    · exact Or.inl h1
    · right
      simpa using h1

theorem alset_replace_fst (k : α) (v : β) (kv : α × β) :
    ((if kv.1 == k then (k, v) else kv) : α × β).1 = kv.1 := by
  by_cases h : kv.1 == k
  · rw [if_pos h]
    exact (eq_of_beq h).symm
  · rw [if_neg h]

theorem keys_alset (l : List (α × β)) (k : α) (v : β) :
    (alset l k v).map Prod.fst =
      if alhas l k then l.map Prod.fst else l.map Prod.fst ++ [k] := by
  unfold alset
  by_cases hh : alhas l k = true
  · rw [if_pos hh, if_pos hh, List.map_map]
    exact List.map_congr_left (fun kv _ => alset_replace_fst k v kv)
  · rw [if_neg hh, if_neg hh, List.map_append]
    rfl

theorem find?_alset_map (l : List (α × β)) (k : α) (v : β) (k' : α) :
    List.find? (fun kv => kv.1 == k')
        (l.map (fun kv => if kv.1 == k then (k, v) else kv)) =
      Option.map (fun kv => if kv.1 == k then (k, v) else kv)
        (List.find? (fun kv => kv.1 == k') l) := by
  rw [List.find?_map]
  have hp : ((fun kv => kv.1 == k') ∘ fun kv : α × β =>
      if kv.1 == k then (k, v) else kv) = (fun kv : α × β => kv.1 == k') := by
    funext kv
    show (((if kv.1 == k then (k, v) else kv) : α × β).1 == k') = (kv.1 == k')
    rw [alset_replace_fst]
  rw [hp]

theorem alget_alset_self (l : List (α × β)) (k : α) (v : β) :
    alget (alset l k v) k = some v := by
  unfold alset
  by_cases hh : alhas l k = true
  · rw [if_pos hh]
    rcases alget_isSome_of_alhas hh with ⟨w, hw⟩
    have hfind := find?_of_alget hw
    unfold alget
    rw [find?_alset_map, hfind]
    simp
  · rw [if_neg hh]
    rw [Bool.not_eq_true, ← alget_eq_none_iff] at hh
    have hf : List.find? (fun kv => kv.1 == k) l = none := by
      unfold alget at hh
      rcases hf : List.find? (fun kv => kv.1 == k) l with _ | kv
      · exact hf
      · rw [hf] at hh
        simp at hh
    unfold alget
    rw [List.find?_append, hf, Option.none_or]
    simp [List.find?]

theorem alget_alset_ne (l : List (α × β)) (k : α) (v : β) (k' : α)
    (h : k' ≠ k) : alget (alset l k v) k' = alget l k' := by
  unfold alset
  by_cases hh : alhas l k = true
  · rw [if_pos hh]
    unfold alget
    rw [find?_alset_map]
    rcases hfind : List.find? (fun kv => kv.1 == k') l with _ | kv
    · rw [hfind]
      rfl
    · rw [hfind]
      have hk' : kv.1 = k' := by simpa using List.find?_some hfind
      have hne : (kv.1 == k) = false := by
        rw [hk']
        exact beq_eq_false_iff_ne.2 (fun he => h he)
      simp [hne]
  · rw [if_neg hh]
    unfold alget
    rw [List.find?_append]
    have hsing : List.find? (fun kv => kv.1 == k') [(k, v)] = none := by
      have hkk : (k == k') = false := beq_eq_false_iff_ne.2 (fun he => h he.symm)
      simp [List.find?, hkk]
    rw [hsing]
    simp

theorem alhas_alset_self (l : List (α × β)) (k : α) (v : β) :
    alhas (alset l k v) k = true :=
  alhas_of_alget (alget_alset_self l k v)

theorem alhas_alset_mono (l : List (α × β)) (k : α) (v : β) (k' : α)
    (h : alhas l k' = true) : alhas (alset l k v) k' = true := by
  by_cases he : k' = k
  · subst he
    exact alhas_alset_self l k' v
  · rcases alget_isSome_of_alhas h with ⟨w, hw⟩
    exact alhas_of_alget (by rwa [alget_alset_ne l k v k' he])

theorem keys_alset_nodup (l : List (α × β)) (k : α) (v : β)
    (h : (l.map Prod.fst).Nodup) : ((alset l k v).map Prod.fst).Nodup := by
  rw [keys_alset]
  by_cases hh : alhas l k = true
  · rwa [if_pos hh]
  · rw [if_neg hh]
    refine List.Nodup.append h (List.nodup_singleton k) ?_
    intro a ha hb
    rcases List.mem_singleton.1 hb with rfl
    rw [Bool.not_eq_true] at hh
    rw [← alhas_iff_mem_keys] at ha
    rw [hh] at ha
    cases ha

theorem mem_dset (l : List String) (k : String) (x : String)
    (h : x ∈ dset l k) : x ∈ l ∨ x = k := by
  unfold dset at h
  by_cases hc : l.contains k = true
  · rw [if_pos hc] at h
    exact Or.inl h
  · rw [if_neg hc] at h
    rcases List.mem_append.1 h with h1 | h1
    · exact Or.inl h1
    · exact Or.inr (List.mem_singleton.1 h1)

theorem dset_nodup (l : List String) (k : String) (h : l.Nodup) :
    (dset l k).Nodup := by
  unfold dset
  by_cases hc : l.contains k = true
  · rwa [if_pos hc]
  · rw [if_neg hc]
    refine List.Nodup.append h (List.nodup_singleton k) ?_
    intro a ha hb
    rcases List.mem_singleton.1 hb with rfl
    exact hc (List.elem_iff.2 ha)

theorem dset_eq_append (l : List String) (k : String)
    (h : l.contains k = false) : dset l k = l ++ [k] := by
  unfold dset
  rw [h]
  simp

end AssocLemmas

/-! ## Inversion helpers for the `Except` monad -/

theorem except_bind_ok {γ α β : Type} {e : Except γ α} {k : α → Except γ β}
    {v : β} (h : e >>= k = .ok v) : ∃ w, e = .ok w ∧ k w = .ok v := by
  cases e with
  | error msg =>
    simp only [bind, Except.bind] at h
    cases h
  | ok w =>
    refine ⟨w, rfl, ?_⟩
    simpa only [bind, Except.bind] using h

theorem except_pure_ok {γ α : Type} {a b : α}
    (h : (pure a : Except γ α) = .ok b) : a = b := by
  simpa only [pure, Except.pure, Except.ok.injEq] using h

/-! ## Frame lemmas: which parts of the state each helper can touch -/

/-- Events that the inner (per-hunk) machinery may fire: everything except
`dependent_done` and `all_done`. -/
def InnerEvent : Event → Prop
  | .dependent_done _ _ => False
  | .all_done => False
  | _ => True

/-- The state change allowed to `get_commit` / `branch_contains` /
`is_excluded`: only the two caches may differ. -/
def CacheOnlyDiff (st st' : Detector) : Prop :=
  st'.options = st.options ∧ st'.dependencies = st.dependencies ∧
  st'.todo = st.todo ∧ st'.todo_d = st.todo_d ∧
  st'.done = st.done ∧ st'.done_d = st.done_d ∧ st'.events = st.events

theorem cacheOnlyDiff_refl (st : Detector) : CacheOnlyDiff st st :=
  ⟨rfl, rfl, rfl, rfl, rfl, rfl, rfl⟩

theorem cacheOnlyDiff_trans {s1 s2 s3 : Detector} (h1 : CacheOnlyDiff s1 s2)
    (h2 : CacheOnlyDiff s2 s3) : CacheOnlyDiff s1 s3 := by
  obtain ⟨a1, b1, c1, d1, e1, f1, g1⟩ := h1
  obtain ⟨a2, b2, c2, d2, e2, f2, g2⟩ := h2
  exact ⟨a2.trans a1, b2.trans b1, c2.trans c1, d2.trans d1, e2.trans e1,
    f2.trans f1, g2.trans g1⟩

theorem get_commit_frame {repo : Repo} {st : Detector} {rev : String}
    {c : Commit} {st' : Detector} (h : get_commit repo st rev = .ok (c, st')) :
    CacheOnlyDiff st st' ∧ st'.branch_contains_cache = st.branch_contains_cache := by
  unfold get_commit at h
  split at h
  · cases h
    exact ⟨cacheOnlyDiff_refl st, rfl⟩
  · split at h
    · cases h
    · cases h
      exact ⟨⟨rfl, rfl, rfl, rfl, rfl, rfl, rfl⟩, rfl⟩

theorem branch_contains_frame {repo : Repo} {st : Detector} {commit : Commit}
    {branch : String} {b : Bool} {st' : Detector}
    (h : branch_contains repo st commit branch = .ok (b, st')) :
    CacheOnlyDiff st st' := by
  unfold branch_contains at h
  rcases hg : get_commit repo st branch with msg | p
  · rw [hg] at h
    cases h
  · obtain ⟨bc, st1⟩ := p
    rw [hg] at h
    simp only [bind, Except.bind] at h
    refine cacheOnlyDiff_trans (get_commit_frame hg).1 ?_
    by_cases hc : alhas st1.branch_contains_cache commit.id
    · simp only [hc, if_true] at h
      split at h
      · simp only [pure, Except.pure, Except.ok.injEq, Prod.mk.injEq] at h
        obtain ⟨-, rfl⟩ := h
        exact cacheOnlyDiff_refl st1
      · simp only [pure, Except.pure, Except.ok.injEq, Prod.mk.injEq] at h
        obtain ⟨-, rfl⟩ := h
        exact ⟨rfl, rfl, rfl, rfl, rfl, rfl, rfl⟩
    · simp only [hc, if_false] at h
      split at h
      · simp only [pure, Except.pure, Except.ok.injEq, Prod.mk.injEq] at h
        obtain ⟨-, rfl⟩ := h
        exact ⟨rfl, rfl, rfl, rfl, rfl, rfl, rfl⟩
      · simp only [pure, Except.pure, Except.ok.injEq, Prod.mk.injEq] at h
        obtain ⟨-, rfl⟩ := h
        exact ⟨rfl, rfl, rfl, rfl, rfl, rfl, rfl⟩

theorem is_excluded_go_frame {repo : Repo} {commit : Commit} :
    ∀ {excludes : List String} {st : Detector} {b : Bool} {st' : Detector},
    is_excluded_go repo commit excludes st = .ok (b, st') →
    CacheOnlyDiff st st' := by
  intro excludes
  induction excludes with
  | nil =>
    intro st b st' h
    unfold is_excluded_go at h
    cases h
    exact cacheOnlyDiff_refl _
  | cons exclude rest ih =>
    intro st b st' h
    unfold is_excluded_go at h
    rcases hbc : branch_contains repo st commit exclude with msg | p
    · rw [hbc] at h
      cases h
    · obtain ⟨bv, st1⟩ := p
      rw [hbc] at h
      simp only [bind, Except.bind] at h
      refine cacheOnlyDiff_trans (branch_contains_frame hbc) ?_
      by_cases hb : bv = true
      · subst hb
        simp only [if_true] at h
        simp only [pure, Except.pure, Except.ok.injEq, Prod.mk.injEq] at h
        obtain ⟨-, rfl⟩ := h
        exact cacheOnlyDiff_refl st1
      · rw [Bool.not_eq_true] at hb
        subst hb
        simp only [Bool.false_eq_true, if_false] at h
        exact ih h

theorem is_excluded_frame {repo : Repo} {st : Detector} {commit : Commit}
    {b : Bool} {st' : Detector}
    (h : is_excluded repo st commit = .ok (b, st')) : CacheOnlyDiff st st' := by
  unfold is_excluded at h
  split at h
  · cases h
    exact cacheOnlyDiff_refl _
  · exact is_excluded_go_frame h

/-- Appending an inner event does not change the list of finished
dependents. -/
theorem doneEvents_append_inner (es : List Event) (e : Event)
    (he : InnerEvent e) : doneEvents (es ++ [e]) = doneEvents es := by
  unfold doneEvents
  rw [List.filterMap_append]
  have hnil : (List.filterMap (fun e =>
      match e with
      | Event.dependent_done s _ => some s
      | _ => none) [e]) = [] := by
    cases e
    case dependent_done => exact he.elim
    case all_done => exact he.elim
    all_goals rfl
  rw [hnil, List.append_nil]

/-- Appending an inner event does not change the `all_done` count. -/
theorem countEvent_append_inner (es : List Event) (e : Event)
    (he : InnerEvent e) :
    countEvent (es ++ [e]) Event.all_done = countEvent es Event.all_done := by
  unfold countEvent
  rw [List.countP_append]
  have hz : List.countP (fun x => decide (x = Event.all_done)) [e] = 0 := by
    cases e
    case all_done => exact he.elim
    all_goals rfl
  rw [hz, Nat.add_zero]

/-- `dependent_done` fires move the trace of finished dependents forward. -/
theorem doneEvents_append_done (es : List Event) (sha : String)
    (dm : DepMap) :
    doneEvents (es ++ [Event.dependent_done sha dm]) = doneEvents es ++ [sha] := by
  unfold doneEvents
  rw [List.filterMap_append]
  rfl

/-- `all_done` is not a `dependent_done`. -/
theorem countEvent_append_done (es : List Event) (sha : String) (dm : DepMap) :
    countEvent (es ++ [Event.dependent_done sha dm]) Event.all_done =
      countEvent es Event.all_done := by
  unfold countEvent
  rw [List.countP_append]
  rfl

/-- Firing `all_done` adds exactly one to its count and no finished
dependent. -/
theorem events_append_all_done (es : List Event) :
    countEvent (es ++ [Event.all_done]) Event.all_done =
      countEvent es Event.all_done + 1 ∧
    doneEvents (es ++ [Event.all_done]) = doneEvents es := by
  constructor
  · unfold countEvent
    rw [List.countP_append]
    rfl
  · unfold doneEvents
    rw [List.filterMap_append]
    have hnil : (List.filterMap (fun e =>
        match e with
        | Event.dependent_done s _ => some s
        | _ => none) [Event.all_done]) = [] := rfl
    rw [hnil, List.append_nil]

/-! ## No-self-edge machinery (C5) -/

/-- No dependent ever has itself among its recorded dependencies. -/
def NoSelfEdge (g : DepGraph) : Prop := ∀ p ∈ g, ∀ q ∈ p.2, p.1 ≠ q.1

/-- Updating an existing dependent key with a dependency map whose keys all
already occur there preserves the absence of self-edges. -/
theorem noSelfEdge_update {g : DepGraph} {dsha : String} {dm dm' : DepMap}
    (hns : NoSelfEdge g) (hget : alget g dsha = some dm)
    (hk : ∀ q ∈ dm', ∃ q0 ∈ dm, q.1 = q0.1) :
    NoSelfEdge (alset g dsha dm') := by
  intro p hp q hq
  rcases mem_alset _ _ _ _ hp with hold | hnew
  · exact hns p hold q hq
  · subst hnew
    rcases hk q hq with ⟨q0, hq0, he⟩
    rw [he]
    exact hns (dsha, dm) (alget_mem hget) q0 hq0

/-- Inserting an edge from `dependent_sha1` to a different commit preserves
the absence of self-edges. -/
theorem noSelfEdge_insert {g : DepGraph} {dsha dysha : String} {dm : DepMap}
    (hns : NoSelfEdge g) (hget : alget g dsha = some dm)
    (hne : dysha ≠ dsha) :
    NoSelfEdge (alset g dsha (alset dm dysha [])) := by
  intro p hp q hq
  rcases mem_alset _ _ _ _ hp with hold | hnew
  · exact hns p hold q hq
  · subst hnew
    rcases mem_alset _ _ _ _ hq with hqold | hqnew
    · exact hns (dsha, dm) (alget_mem hget) q hqold
    · subst hqnew
      exact fun he => hne he.symm

/-- Registering a fresh dependent key (with no dependencies yet) preserves
the absence of self-edges. -/
theorem register_new_dependent_noSelfEdge (st : Detector) (dependent : Commit)
    (dependent_sha1 : String) (hns : NoSelfEdge st.dependencies) :
    NoSelfEdge (register_new_dependent st dependent dependent_sha1).dependencies := by
  unfold register_new_dependent
  by_cases hh : alhas st.dependencies dependent_sha1 = true
  · rw [if_pos hh]
    exact hns
  · rw [if_neg hh]
    intro p hp q hq
    rcases mem_alset _ _ _ _ hp with hold | hnew
    · exact hns p hold q hq
    · subst hnew
      cases hq

/-- Combined effect lemma for `record_dependency_source`: events are
inner-only appends, graph keys only grow, and no self-edge can be created
(the updated edge's keys already exist in the graph). -/
theorem record_dependency_source_effects {st : Detector} {parent : Commit}
    {dependent : Commit} {dependent_sha1 : String} {dependency : Commit}
    {dependency_sha1 path : String} {line_num : Nat} {line : String}
    {st' : Detector}
    (h : record_dependency_source st parent dependent dependent_sha1
      dependency dependency_sha1 path line_num line = .ok st') :
    (∃ es, st'.events = st.events ++ es) ∧
    doneEvents st'.events = doneEvents st.events ∧
    countEvent st'.events Event.all_done = countEvent st.events Event.all_done ∧
    (∀ k, alhas st.dependencies k = true → alhas st'.dependencies k = true) ∧
    (NoSelfEdge st.dependencies → NoSelfEdge st'.dependencies) := by
  unfold record_dependency_source writeDeps at h
  simp only [Detector.notify] at h
  rcases h1 : alget st.dependencies dependent_sha1 with _ | depmap
  · simp only [h1] at h
    cases h
  · simp only [h1] at h
    rcases h2 : alget depmap dependency_sha1 with _ | dep_sources
    · simp only [h2] at h
      cases h
    · simp only [h2] at h
      by_cases hpn : (!alhas dep_sources path) = true
      · simp only [hpn, if_true, alget_alset_self, Option.getD_some] at h
        by_cases hdup : alhas ([] : LineMap) line_num = true
        · rw [if_pos hdup] at h
          cases h
        · rw [if_neg hdup] at h
          cases h
          refine ⟨⟨_, by rw [List.append_assoc]⟩,
            (doneEvents_append_inner _ _ (by trivial)).trans
              (doneEvents_append_inner _ _ (by trivial)),
            (countEvent_append_inner _ _ (by trivial)).trans
              (countEvent_append_inner _ _ (by trivial)),
            ?_, ?_⟩
          · intro k hk
            exact alhas_alset_mono _ _ _ k (alhas_alset_mono _ _ _ k hk)
          · intro hns
            have hg1 : NoSelfEdge (alset st.dependencies dependent_sha1
                (alset depmap dependency_sha1 (alset dep_sources path []))) := by
              refine noSelfEdge_update hns h1 ?_
              intro q hq
              rcases mem_alset _ _ _ _ hq with hold | hnew
              · exact ⟨q, hold, rfl⟩
              · subst hnew
                exact ⟨(dependency_sha1, dep_sources), alget_mem h2, rfl⟩
            refine noSelfEdge_update hg1 (alget_alset_self _ _ _) ?_
            intro q hq
            rcases mem_alset _ _ _ _ hq with hold | hnew
            · exact ⟨q, hold, rfl⟩
            · subst hnew
              exact ⟨(dependency_sha1, alset dep_sources path []),
                alget_mem (alget_alset_self _ _ _), rfl⟩
      · simp only [hpn, Bool.false_eq_true, if_false, h1, Option.getD_some] at h
        by_cases hdup : alhas ((alget dep_sources path).getD []) line_num = true
        · rw [if_pos hdup] at h
          cases h
        · rw [if_neg hdup] at h
          cases h
          refine ⟨⟨_, rfl⟩,
            doneEvents_append_inner _ _ (by trivial),
            countEvent_append_inner _ _ (by trivial),
            ?_, ?_⟩
          · intro k hk
            exact alhas_alset_mono _ _ _ k hk
          · intro hns
            refine noSelfEdge_update hns h1 ?_
            intro q hq
            rcases mem_alset _ _ _ _ hq with hold | hnew
            · exact ⟨q, hold, rfl⟩
            · subst hnew
              exact ⟨(dependency_sha1, dep_sources), alget_mem h2, rfl⟩

/-! ## Duplicate-evidence machinery (C2) -/

/-- Every line-evidence map in the graph has each line number at most once. -/
def NoDupEvidence (g : DepGraph) : Prop :=
  ∀ p ∈ g, ∀ q ∈ p.2, ∀ r ∈ q.2, (r.2.map Prod.fst).Nodup

theorem noDupEvidence_update {g : DepGraph} {dsha : String} {dm' : DepMap}
    (hnd : NoDupEvidence g)
    (hvals : ∀ q ∈ dm', ∀ r ∈ q.2, (r.2.map Prod.fst).Nodup) :
    NoDupEvidence (alset g dsha dm') := by
  intro p hp q hq r hr
  rcases mem_alset _ _ _ _ hp with hold | hnew
  · exact hnd p hold q hq r hr
  · subst hnew
    exact hvals q hq r hr

/-- The line map created for a brand-new line number has unique keys. -/
theorem singleton_linemap_nodup (line_num : Nat) (line : String) :
    ((alset ([] : LineMap) line_num line).map Prod.fst).Nodup := by
  simp [alset, alhas]

/-- A successful `record_dependency_source` preserves uniqueness of line
numbers in every evidence map. -/
theorem record_dependency_source_noDup {st : Detector} {parent : Commit}
    {dependent : Commit} {dependent_sha1 : String} {dependency : Commit}
    {dependency_sha1 path : String} {line_num : Nat} {line : String}
    {st' : Detector}
    (h : record_dependency_source st parent dependent dependent_sha1
      dependency dependency_sha1 path line_num line = .ok st')
    (hnd : NoDupEvidence st.dependencies) : NoDupEvidence st'.dependencies := by
  unfold record_dependency_source writeDeps at h
  simp only [Detector.notify] at h
  rcases h1 : alget st.dependencies dependent_sha1 with _ | depmap
  · simp only [h1] at h
    cases h
  · simp only [h1] at h
    rcases h2 : alget depmap dependency_sha1 with _ | dep_sources
    · simp only [h2] at h
      cases h
    · simp only [h2] at h
      have holdvals : ∀ q ∈ depmap, ∀ r ∈ q.2, (r.2.map Prod.fst).Nodup :=
        fun q hq r hr => hnd _ (alget_mem h1) q hq r hr
      have holdds : ∀ r ∈ dep_sources, (r.2.map Prod.fst).Nodup :=
        fun r hr => hnd _ (alget_mem h1) _ (alget_mem h2) r hr
      by_cases hpn : (!alhas dep_sources path) = true
      · simp only [hpn, if_true, alget_alset_self, Option.getD_some] at h
        by_cases hdup : alhas ([] : LineMap) line_num = true
        · rw [if_pos hdup] at h
          cases h
        · rw [if_neg hdup] at h
          cases h
          have hds1 : ∀ r ∈ alset dep_sources path ([] : LineMap),
              (r.2.map Prod.fst).Nodup := by
            intro r hr
            rcases mem_alset _ _ _ _ hr with hold | hnew
            · exact holdds r hold
            · subst hnew
              exact List.nodup_nil
          have hg1 : NoDupEvidence (alset st.dependencies dependent_sha1
              (alset depmap dependency_sha1 (alset dep_sources path []))) := by
            refine noDupEvidence_update hnd ?_
            intro q hq r hr
            rcases mem_alset _ _ _ _ hq with hold | hnew
            · exact holdvals q hold r hr
            · subst hnew
              exact hds1 r hr
          refine noDupEvidence_update hg1 ?_
          intro q hq r hr
          rcases mem_alset _ _ _ _ hq with hold | hnew
          · rcases mem_alset _ _ _ _ hold with hold2 | hnew2
            · exact holdvals q hold2 r hr
            · subst hnew2
              exact hds1 r hr
          · subst hnew
            rcases mem_alset _ _ _ _ hr with hold3 | hnew3
            · exact hds1 r hold3
            · subst hnew3
              exact singleton_linemap_nodup line_num line
      · simp only [hpn, Bool.false_eq_true, if_false, h1, Option.getD_some] at h
        by_cases hdup : alhas ((alget dep_sources path).getD []) line_num = true
        · rw [if_pos hdup] at h
          cases h
        · rw [if_neg hdup] at h
          cases h
          refine noDupEvidence_update hnd ?_
          intro q hq r hr
          rcases mem_alset _ _ _ _ hq with hold | hnew
          · exact holdvals q hold r hr
          · subst hnew
            rcases mem_alset _ _ _ _ hr with hold2 | hnew2
            · exact holdds r hold2
            · subst hnew2
              rcases hlm : alget dep_sources path with _ | lm0
              · exact singleton_linemap_nodup line_num line
              · exact keys_alset_nodup lm0 line_num line
                  (holdds _ (alget_mem hlm))

/-! ## Unconditional per-function facts -/

/-- `register_new_dependent` only adds a (pair-free) dependent key and
possibly one `new_dependent` event. -/
theorem register_new_dependent_facts (st : Detector) (dependent : Commit)
    (dependent_sha1 : String) :
    (register_new_dependent st dependent dependent_sha1).options = st.options ∧
    (register_new_dependent st dependent dependent_sha1).todo = st.todo ∧
    (register_new_dependent st dependent dependent_sha1).todo_d = st.todo_d ∧
    (register_new_dependent st dependent dependent_sha1).done = st.done ∧
    (register_new_dependent st dependent dependent_sha1).done_d = st.done_d ∧
    (register_new_dependent st dependent dependent_sha1).commits = st.commits ∧
    alhas (register_new_dependent st dependent dependent_sha1).dependencies
      dependent_sha1 = true ∧
    (∀ k, alhas st.dependencies k = true →
      alhas (register_new_dependent st dependent dependent_sha1).dependencies
        k = true) ∧
    ((register_new_dependent st dependent dependent_sha1).events = st.events ∨
      (register_new_dependent st dependent dependent_sha1).events =
        st.events ++ [Event.new_dependent dependent.id]) := by
  unfold register_new_dependent
  by_cases hh : alhas st.dependencies dependent_sha1 = true
  · rw [if_pos hh]
    exact ⟨rfl, rfl, rfl, rfl, rfl, rfl, hh, fun k hk => hk, Or.inl rfl⟩
  · rw [if_neg hh]
    refine ⟨rfl, rfl, rfl, rfl, rfl, rfl, ?_, ?_, Or.inr rfl⟩
    · exact alhas_alset_self st.dependencies dependent_sha1 []
    · intro k hk
      exact alhas_alset_mono st.dependencies dependent_sha1 [] k hk

/-- `process_new_dependency` either leaves the worklist alone or appends the
dependency at the tail. -/
theorem process_new_dependency_todo {st : Detector} {dependent : Commit}
    {dependent_sha1 : String} {dependency : Commit}
    {dependency_sha1 path : String} {line_num : Nat} {st' : Detector}
    (h : process_new_dependency st dependent dependent_sha1 dependency
      dependency_sha1 path line_num = .ok st') :
    st'.todo = st.todo ∨ st'.todo = st.todo ++ [dependency] := by
  unfold process_new_dependency at h
  simp only [bind, Except.bind, pure, Except.pure, Detector.notify] at h
  repeat' split at h
  all_goals cases h
  all_goals first | exact Or.inl rfl | exact Or.inr rfl

/-- `record_dependency_source` touches only the graph and the event trace. -/
theorem record_dependency_source_frame {st : Detector} {parent : Commit}
    {dependent : Commit} {dependent_sha1 : String} {dependency : Commit}
    {dependency_sha1 path : String} {line_num : Nat} {line : String}
    {st' : Detector}
    (h : record_dependency_source st parent dependent dependent_sha1
      dependency dependency_sha1 path line_num line = .ok st') :
    st'.options = st.options ∧ st'.todo = st.todo ∧ st'.todo_d = st.todo_d ∧
    st'.done = st.done ∧ st'.done_d = st.done_d ∧ st'.commits = st.commits ∧
    st'.branch_contains_cache = st.branch_contains_cache := by
  unfold record_dependency_source writeDeps at h
  simp only [Detector.notify] at h
  repeat' split at h
  all_goals cases h
  all_goals exact ⟨rfl, rfl, rfl, rfl, rfl, rfl, rfl⟩


/-- Full characterization of one successful `process_new_dependency` call:
frame, event effect, graph effect, and worklist effect with the guards under
which the dependency is enqueued. -/
theorem process_new_dependency_char {st : Detector} {dependent : Commit}
    {dependent_sha1 : String} {dependency : Commit}
    {dependency_sha1 path : String} {line_num : Nat} {st' : Detector}
    (h : process_new_dependency st dependent dependent_sha1 dependency
      dependency_sha1 path line_num = .ok st') :
    (st'.options = st.options ∧ st'.done = st.done ∧ st'.done_d = st.done_d ∧
     st'.commits = st.commits ∧
     st'.branch_contains_cache = st.branch_contains_cache) ∧
    (∀ k, alhas st.dependencies k = true → alhas st'.dependencies k = true) ∧
    (∃ es, st'.events = st.events ++ es) ∧
    doneEvents st'.events = doneEvents st.events ∧
    countEvent st'.events Event.all_done = countEvent st.events Event.all_done ∧
    (st'.dependencies = st.dependencies ∨
      ∃ depmap, alget st.dependencies dependent_sha1 = some depmap ∧
        st'.dependencies =
          alset st.dependencies dependent_sha1
            (alset depmap dependency_sha1 [])) ∧
    ((st'.todo = st.todo ∧ st'.todo_d = st.todo_d) ∨
      (st'.todo = st.todo ++ [dependency] ∧
       st'.todo_d = dset st.todo_d dependency.id ∧
       st.todo_d.contains dependency_sha1 = false ∧
       st.done_d.contains dependency_sha1 = false ∧
       st.options.recurse = true ∧
       alhas st.dependencies dependency_sha1 = false ∧
       (alhas st.dependencies dependent_sha1 = true →
         dependency_sha1 ≠ dependent_sha1))) ∧
    (seen_commit st (PyKey.commitObj dependency.id) = false →
      st'.events = st.events ++ [Event.new_commit dependency.id,
        Event.new_dependency dependent.id dependency.id path line_num]) := by
  unfold process_new_dependency at h
  simp only [bind, Except.bind, pure, Except.pure, Detector.notify] at h
  by_cases hseen : seen_commit st (PyKey.commitObj dependency.id) = true
  · simp only [hseen, Bool.not_true, Bool.false_eq_true, if_false] at h
    have hnoseen : seen_commit st (PyKey.commitObj dependency.id) = false →
        st'.events = st.events ++ [Event.new_commit dependency.id,
          Event.new_dependency dependent.id dependency.id path line_num] := by
      intro hsf
      rw [hseen] at hsf
      cases hsf
    by_cases hc1 : st.todo_d.contains dependency_sha1 = true
    · rw [if_pos hc1] at h
      cases h
      exact ⟨⟨rfl, rfl, rfl, rfl, rfl⟩, fun k hk => hk,
        ⟨[Event.new_dependency dependent.id dependency.id path line_num], rfl⟩,
        doneEvents_append_inner _ _ (by trivial),
        countEvent_append_inner _ _ (by trivial),
        Or.inl rfl, Or.inl ⟨rfl, rfl⟩, hnoseen⟩
    · rw [if_neg hc1] at h
      by_cases hc2 : st.done_d.contains dependency_sha1 = true
      · rw [if_pos hc2] at h
        cases h
        exact ⟨⟨rfl, rfl, rfl, rfl, rfl⟩, fun k hk => hk,
          ⟨[Event.new_dependency dependent.id dependency.id path line_num], rfl⟩,
          doneEvents_append_inner _ _ (by trivial),
          countEvent_append_inner _ _ (by trivial),
          Or.inl rfl, Or.inl ⟨rfl, rfl⟩, hnoseen⟩
      · rw [if_neg hc2] at h
        by_cases hc3 : (!alhas st.dependencies dependency_sha1) = true
        · rw [if_pos hc3] at h
          by_cases hc4 : st.options.recurse = true
          · rw [if_pos hc4] at h
            cases h
            rw [Bool.not_eq_true] at hc1 hc2
            rw [Bool.not_eq_true'] at hc3
            refine ⟨⟨rfl, rfl, rfl, rfl, rfl⟩, fun k hk => hk,
              ⟨[Event.new_dependency dependent.id dependency.id path line_num], rfl⟩,
              doneEvents_append_inner _ _ (by trivial),
              countEvent_append_inner _ _ (by trivial),
              Or.inl rfl,
              Or.inr ⟨rfl, rfl, hc1, hc2, hc4, hc3, ?_⟩, hnoseen⟩
            intro ha heq
            rw [heq, ha] at hc3
            cases hc3
          · rw [if_neg hc4] at h
            cases h
            exact ⟨⟨rfl, rfl, rfl, rfl, rfl⟩, fun k hk => hk,
              ⟨[Event.new_dependency dependent.id dependency.id path line_num], rfl⟩,
              doneEvents_append_inner _ _ (by trivial),
              countEvent_append_inner _ _ (by trivial),
              Or.inl rfl, Or.inl ⟨rfl, rfl⟩, hnoseen⟩
        · rw [if_neg hc3] at h
          cases h
          exact ⟨⟨rfl, rfl, rfl, rfl, rfl⟩, fun k hk => hk,
            ⟨[Event.new_dependency dependent.id dependency.id path line_num], rfl⟩,
            doneEvents_append_inner _ _ trivial,
            countEvent_append_inner _ _ trivial,
            Or.inl rfl, Or.inl ⟨rfl, rfl⟩, hnoseen⟩
  · rw [Bool.not_eq_true] at hseen
    simp only [hseen, Bool.not_false, if_true] at h
    rcases halget : alget st.dependencies dependent_sha1 with _ | depmap
    · simp only [halget] at h
      cases h
    · simp only [halget] at h
      have hmono : ∀ k, alhas st.dependencies k = true →
          alhas (alset st.dependencies dependent_sha1
            (alset depmap dependency_sha1 [])) k = true :=
        fun k hk => alhas_alset_mono _ _ _ k hk
      have hev2 : ∀ es0 : List Event,
          es0 ++ [Event.new_commit dependency.id] ++
            [Event.new_dependency dependent.id dependency.id path line_num] =
          es0 ++ [Event.new_commit dependency.id,
            Event.new_dependency dependent.id dependency.id path line_num] := by
        intro es0
        rw [List.append_assoc]
        rfl
      have hde : doneEvents (st.events ++ [Event.new_commit dependency.id] ++
          [Event.new_dependency dependent.id dependency.id path line_num]) =
          doneEvents st.events :=
        (doneEvents_append_inner _ _ (by trivial)).trans
          (doneEvents_append_inner _ _ (by trivial))
      have hce : countEvent (st.events ++ [Event.new_commit dependency.id] ++
          [Event.new_dependency dependent.id dependency.id path line_num])
            Event.all_done =
          countEvent st.events Event.all_done :=
        (countEvent_append_inner _ _ (by trivial)).trans
          (countEvent_append_inner _ _ (by trivial))
      by_cases hc1 : st.todo_d.contains dependency_sha1 = true
      · rw [if_pos hc1] at h
        cases h
        exact ⟨⟨rfl, rfl, rfl, rfl, rfl⟩, hmono,
          ⟨_, hev2 st.events⟩, hde, hce,
          Or.inr ⟨depmap, rfl, rfl⟩, Or.inl ⟨rfl, rfl⟩,
          fun _ => hev2 st.events⟩
      · rw [if_neg hc1] at h
        by_cases hc2 : st.done_d.contains dependency_sha1 = true
        · rw [if_pos hc2] at h
          cases h
          exact ⟨⟨rfl, rfl, rfl, rfl, rfl⟩, hmono,
            ⟨_, hev2 st.events⟩, hde, hce,
            Or.inr ⟨depmap, rfl, rfl⟩, Or.inl ⟨rfl, rfl⟩,
            fun _ => hev2 st.events⟩
        · rw [if_neg hc2] at h
          by_cases hc3 : (!alhas (alset st.dependencies dependent_sha1
              (alset depmap dependency_sha1 [])) dependency_sha1) = true
          · rw [if_pos hc3] at h
            rw [Bool.not_eq_true'] at hc3
            have hstf : alhas st.dependencies dependency_sha1 = false := by
              by_contra hx
              rw [Bool.not_eq_false] at hx
              have := hmono dependency_sha1 hx
              rw [hc3] at this
              cases this
            have hne : dependency_sha1 ≠ dependent_sha1 := by
              intro heq
              rw [heq] at hc3
              rw [alhas_alset_self] at hc3
              cases hc3
            by_cases hc4 : st.options.recurse = true
            · rw [if_pos hc4] at h
              cases h
              rw [Bool.not_eq_true] at hc1 hc2
              exact ⟨⟨rfl, rfl, rfl, rfl, rfl⟩, hmono,
                ⟨_, hev2 st.events⟩, hde, hce,
                Or.inr ⟨depmap, rfl, rfl⟩,
                Or.inr ⟨rfl, rfl, hc1, hc2, hc4, hstf, fun _ => hne⟩,
                fun _ => hev2 st.events⟩
            · rw [if_neg hc4] at h
              cases h
              exact ⟨⟨rfl, rfl, rfl, rfl, rfl⟩, hmono,
                ⟨_, hev2 st.events⟩, hde, hce,
                Or.inr ⟨depmap, rfl, rfl⟩, Or.inl ⟨rfl, rfl⟩,
                fun _ => hev2 st.events⟩
          · rw [if_neg hc3] at h
            cases h
            exact ⟨⟨rfl, rfl, rfl, rfl, rfl⟩, hmono,
              ⟨_, hev2 st.events⟩, hde, hce,
              Or.inr ⟨depmap, rfl, rfl⟩, Or.inl ⟨rfl, rfl⟩,
              fun _ => hev2 st.events⟩

/-! ## The step invariant used for termination (C4) -/

/-- Backend resolution well-formedness: every resolvable revision denotes a
commit of the (finite) history, under its own id. -/
def RepoWF (H : List Commit) (repo : Repo) : Prop :=
  ∀ r c, repo.refResolve r = some c → c ∈ H ∧ c.id = r

/-- Commit-cache well-formedness: cached commits come from the history and
string keys are id-consistent. -/
def CommitsWF (H : List Commit) (st : Detector) : Prop :=
  ∀ kv ∈ st.commits, kv.2 ∈ H ∧ ∀ r, kv.1 = PyKey.str r → kv.2.id = r

/-- Worklist well-formedness relative to the commit currently being
processed (`dsha`): the membership dict mirrors the queue, ids are unique,
and every queued commit is a history commit that is neither done nor the
current one. -/
def TodoOK (H : List Commit) (dsha : String) (st : Detector) : Prop :=
  st.todo_d = st.todo.map (fun c => c.id) ∧
  (st.todo.map (fun c => c.id)).Nodup ∧
  ∀ c ∈ st.todo, c ∈ H ∧ c.id ∉ st.done_d ∧ c.id ≠ dsha

/-- Everything the hunk-level machinery preserves while one dependent
(`dsha`) is being processed. -/
def Step (H : List Commit) (repo : Repo) (dsha : String)
    (st st' : Detector) : Prop :=
  st'.options = st.options ∧
  st'.done = st.done ∧
  st'.done_d = st.done_d ∧
  (∃ extra, st'.todo = st.todo ++ extra) ∧
  (∃ es, st'.events = st.events ++ es) ∧
  doneEvents st'.events = doneEvents st.events ∧
  countEvent st'.events Event.all_done = countEvent st.events Event.all_done ∧
  (∀ k, alhas st.dependencies k = true → alhas st'.dependencies k = true) ∧
  (RepoWF H repo → CommitsWF H st → CommitsWF H st') ∧
  (RepoWF H repo → CommitsWF H st → alhas st.dependencies dsha = true →
    TodoOK H dsha st → TodoOK H dsha st')

theorem step_refl (H : List Commit) (repo : Repo) (dsha : String)
    (st : Detector) : Step H repo dsha st st :=
  ⟨rfl, rfl, rfl, ⟨[], by simp⟩, ⟨[], by simp⟩, rfl, rfl, fun _ hk => hk,
    fun _ hc => hc, fun _ _ _ ht => ht⟩

theorem step_trans {H : List Commit} {repo : Repo} {dsha : String}
    {s1 s2 s3 : Detector} (h1 : Step H repo dsha s1 s2)
    (h2 : Step H repo dsha s2 s3) : Step H repo dsha s1 s3 := by
  obtain ⟨o1, d1, dd1, ⟨e1, t1⟩, ⟨v1, ev1⟩, de1, ce1, m1, cw1, tk1⟩ := h1
  obtain ⟨o2, d2, dd2, ⟨e2, t2⟩, ⟨v2, ev2⟩, de2, ce2, m2, cw2, tk2⟩ := h2
  refine ⟨o2.trans o1, d2.trans d1, dd2.trans dd1,
    ⟨e1 ++ e2, by rw [t2, t1, List.append_assoc]⟩,
    ⟨v1 ++ v2, by rw [ev2, ev1, List.append_assoc]⟩,
    de2.trans de1, ce2.trans ce1, fun k hk => m2 k (m1 k hk),
    fun hr hc => cw2 hr (cw1 hr hc), ?_⟩
  intro hr hc ha ht
  exact tk2 hr (cw1 hr hc) (m1 dsha ha) (tk1 hr hc ha ht)

/-- `get_commit` resolves into the history, id-consistently, and keeps the
cache well-formed. -/
theorem get_commit_wf {H : List Commit} {repo : Repo} {st : Detector}
    {rev : String} {c : Commit} {st' : Detector}
    (h : get_commit repo st rev = .ok (c, st'))
    (hr : RepoWF H repo) (hc : CommitsWF H st) :
    c ∈ H ∧ c.id = rev ∧ CommitsWF H st' := by
  unfold get_commit at h
  rcases hcache : alget st.commits (PyKey.str rev) with _ | c0
  · rw [hcache] at h
    rcases href : repo.refResolve rev with _ | c1
    · rw [href] at h
      cases h
    · rw [href] at h
      cases h
      rcases hr rev _ href with ⟨h1, h2⟩
      refine ⟨h1, h2, ?_⟩
      intro kv hkv
      rcases mem_alset _ _ _ _ hkv with hm | he
      · exact hc kv hm
      · subst he
        exact ⟨h1, fun r hrr => by cases hrr; exact h2⟩
  · rw [hcache] at h
    cases h
    have hmem := alget_mem hcache
    rcases hc _ hmem with ⟨h1, h2⟩
    exact ⟨h1, h2 rev rfl, hc⟩

/-- `branch_contains` keeps the commit cache well-formed. -/
theorem branch_contains_wf {H : List Commit} {repo : Repo} {st : Detector}
    {commit : Commit} {branch : String} {b : Bool} {st' : Detector}
    (h : branch_contains repo st commit branch = .ok (b, st'))
    (hr : RepoWF H repo) (hc : CommitsWF H st) : CommitsWF H st' := by
  unfold branch_contains at h
  rcases hg : get_commit repo st branch with msg | p
  · rw [hg] at h
    cases h
  · obtain ⟨bc, st1⟩ := p
    rw [hg] at h
    simp only [bind, Except.bind] at h
    have hc1 : CommitsWF H st1 := (get_commit_wf hg hr hc).2.2
    by_cases hcc : alhas st1.branch_contains_cache commit.id
    · simp only [hcc, if_true] at h
      split at h
      · simp only [pure, Except.pure, Except.ok.injEq, Prod.mk.injEq] at h
        obtain ⟨-, rfl⟩ := h
        exact hc1
      · simp only [pure, Except.pure, Except.ok.injEq, Prod.mk.injEq] at h
        obtain ⟨-, rfl⟩ := h
        exact hc1
    · simp only [hcc, if_false] at h
      split at h
      · simp only [pure, Except.pure, Except.ok.injEq, Prod.mk.injEq] at h
        obtain ⟨-, rfl⟩ := h
        exact hc1
      · simp only [pure, Except.pure, Except.ok.injEq, Prod.mk.injEq] at h
        obtain ⟨-, rfl⟩ := h
        exact hc1

/-- The exclusion loop keeps the commit cache well-formed. -/
theorem is_excluded_go_wf {H : List Commit} {repo : Repo} {commit : Commit} :
    ∀ {excludes : List String} {st : Detector} {b : Bool} {st' : Detector},
    is_excluded_go repo commit excludes st = .ok (b, st') →
    RepoWF H repo → CommitsWF H st → CommitsWF H st' := by
  intro excludes
  induction excludes with
  | nil =>
    intro st b st' h hr hc
    unfold is_excluded_go at h
    cases h
    exact hc
  | cons exclude rest ih =>
    intro st b st' h hr hc
    unfold is_excluded_go at h
    rcases hbc : branch_contains repo st commit exclude with msg | p
    · rw [hbc] at h
      cases h
    · obtain ⟨bv, st1⟩ := p
      rw [hbc] at h
      simp only [bind, Except.bind] at h
      have hc1 : CommitsWF H st1 := branch_contains_wf hbc hr hc
      by_cases hb : bv = true
      · subst hb
        simp only [if_true] at h
        simp only [pure, Except.pure, Except.ok.injEq, Prod.mk.injEq] at h
        obtain ⟨-, rfl⟩ := h
        exact hc1
      · rw [Bool.not_eq_true] at hb
        subst hb
        simp only [Bool.false_eq_true, if_false] at h
        exact ih h hr hc1

/-- `is_excluded` keeps the commit cache well-formed. -/
theorem is_excluded_wf {H : List Commit} {repo : Repo} {st : Detector}
    {commit : Commit} {b : Bool} {st' : Detector}
    (h : is_excluded repo st commit = .ok (b, st'))
    (hr : RepoWF H repo) (hc : CommitsWF H st) : CommitsWF H st' := by
  unfold is_excluded at h
  split at h
  · cases h
    exact hc
  · exact is_excluded_go_wf h hr hc

/-- A cache-only state change is a `Step`. -/
theorem step_of_cache {H : List Commit} {repo : Repo} (dsha : String)
    {st st' : Detector} (hframe : CacheOnlyDiff st st')
    (hcw : RepoWF H repo → CommitsWF H st → CommitsWF H st') :
    Step H repo dsha st st' := by
  obtain ⟨ho, hdeps, htodo, htd, hdone, hdd, hev⟩ := hframe
  refine ⟨ho, hdone, hdd, ⟨[], by simp [htodo]⟩, ⟨[], by simp [hev]⟩,
    by rw [hev], by rw [hev], fun k hk => by rw [hdeps]; exact hk, hcw, ?_⟩
  intro _ _ _ ht
  unfold TodoOK at ht ⊢
  rw [htodo, htd, hdd]
  exact ht

theorem get_commit_step {H : List Commit} {repo : Repo} (dsha : String)
    {st : Detector} {rev : String} {c : Commit} {st' : Detector}
    (h : get_commit repo st rev = .ok (c, st')) : Step H repo dsha st st' :=
  step_of_cache dsha
    ((get_commit_frame h).1)
    (fun hr hc => (get_commit_wf h hr hc).2.2)

theorem is_excluded_step {H : List Commit} {repo : Repo} (dsha : String)
    {st : Detector} {commit : Commit} {b : Bool} {st' : Detector}
    (h : is_excluded repo st commit = .ok (b, st')) : Step H repo dsha st st' :=
  step_of_cache dsha (is_excluded_frame h) (fun hr hc => is_excluded_wf h hr hc)

theorem register_new_dependent_step (H : List Commit) (repo : Repo)
    (st : Detector) (dependent : Commit) (dependent_sha1 : String) :
    Step H repo dependent_sha1 st
      (register_new_dependent st dependent dependent_sha1) := by
  obtain ⟨ho, ht, htd, hd, hdd, hcm, hhas, hmono, hev⟩ :=
    register_new_dependent_facts st dependent dependent_sha1
  refine ⟨ho, hd, hdd, ⟨[], by simp [ht]⟩, ?_, ?_, ?_, hmono, ?_, ?_⟩
  · rcases hev with he | he
    · exact ⟨[], by simp [he]⟩
    · exact ⟨_, he⟩
  · rcases hev with he | he
    · rw [he]
    · rw [he]
      exact doneEvents_append_inner _ _ (by trivial)
  · rcases hev with he | he
    · rw [he]
    · rw [he]
      exact countEvent_append_inner _ _ (by trivial)
  · intro _ hc kv hkv
    rw [hcm] at hkv
    exact hc kv hkv
  · intro _ _ _ ht'
    unfold TodoOK at ht' ⊢
    rw [ht, htd, hdd]
    exact ht'

theorem record_dependency_source_step {H : List Commit} {repo : Repo}
    {st : Detector} {parent : Commit} {dependent : Commit}
    {dependent_sha1 : String} {dependency : Commit}
    {dependency_sha1 path : String} {line_num : Nat} {line : String}
    {st' : Detector}
    (h : record_dependency_source st parent dependent dependent_sha1
      dependency dependency_sha1 path line_num line = .ok st') :
    Step H repo dependent_sha1 st st' := by
  obtain ⟨ho, ht, htd, hd, hdd, hcm, hbc⟩ := record_dependency_source_frame h
  obtain ⟨hes, hde, hce, hmono, -⟩ := record_dependency_source_effects h
  refine ⟨ho, hd, hdd, ⟨[], by simp [ht]⟩, hes, hde, hce, hmono, ?_, ?_⟩
  · intro _ hc kv hkv
    rw [hcm] at hkv
    exact hc kv hkv
  · intro _ _ _ ht'
    unfold TodoOK at ht' ⊢
    rw [ht, htd, hdd]
    exact ht'

theorem process_new_dependency_step {H : List Commit} {repo : Repo}
    {st : Detector} {dependent : Commit} {dependent_sha1 : String}
    {dependency : Commit} {dependency_sha1 path : String} {line_num : Nat}
    {st' : Detector}
    (h : process_new_dependency st dependent dependent_sha1 dependency
      dependency_sha1 path line_num = .ok st')
    (hdepH : dependency ∈ H) (hid : dependency.id = dependency_sha1) :
    Step H repo dependent_sha1 st st' := by
  obtain ⟨⟨ho, hd, hdd, hcm, hbc⟩, hmono, hes, hde, hce, hg, htodo, hsev⟩ :=
    process_new_dependency_char h
  refine ⟨ho, hd, hdd, ?_, hes, hde, hce, hmono, ?_, ?_⟩
  · rcases htodo with ⟨ht, -⟩ | ⟨ht, -⟩
    · exact ⟨[], by simp [ht]⟩
    · exact ⟨_, ht⟩
  · intro _ hc kv hkv
    rw [hcm] at hkv
    exact hc kv hkv
  · intro hr hc ha ht
    rcases htodo with ⟨ht1, ht2⟩ | ⟨ht1, ht2, hg1, hg2, hg3, hg4, hg5⟩
    · unfold TodoOK at ht ⊢
      rw [ht1, ht2, hdd]
      exact ht
    · obtain ⟨htd, hnd, hmem⟩ := ht
      have hne : dependency.id ≠ dependent_sha1 := by
        rw [hid]
        exact hg5 ha
      have hcont : st.todo_d.contains dependency.id = false := by
        rw [hid]
        exact hg1
      have hdcont : st.done_d.contains dependency.id = false := by
        rw [hid]
        exact hg2
      have hnotin_td : dependency.id ∉ st.todo_d := by
        intro hx
        have hel : st.todo_d.contains dependency.id = true := List.elem_iff.2 hx
        rw [hcont] at hel
        cases hel
      have hnotin_dd : dependency.id ∉ st.done_d := by
        intro hx
        have hel : st.done_d.contains dependency.id = true := List.elem_iff.2 hx
        rw [hdcont] at hel
        cases hel
      refine ⟨?_, ?_, ?_⟩
      · rw [ht2, ht1, dset_eq_append _ _ hcont, htd, List.map_append]
        rfl
      · rw [ht1, List.map_append]
        refine List.Nodup.append (htd ▸ hnd) (List.nodup_singleton _) ?_
        intro a ha2 hb
        rcases List.mem_singleton.1 hb with rfl
        rw [← htd] at ha2
        exact hnotin_td ha2
      · intro c hcmem
        rw [ht1] at hcmem
        rcases List.mem_append.1 hcmem with hold | hnew
        · rcases hmem c hold with ⟨m1, m2, m3⟩
          rw [hdd]
          exact ⟨m1, m2, m3⟩
        · rcases List.mem_singleton.1 hnew with rfl
          rw [hdd]
          exact ⟨hdepH, hnotin_dd, hne⟩

/-- One blame hunk's processing is a `Step`, and cannot create a self-edge
unless the blame result names the dependent itself. -/
theorem process_blame_hunk_step {H : List Commit} {repo : Repo}
    {st : Detector} {dependent : Commit} {dependent_sha1 : String}
    {parent : Commit} {path : String} {blame_hunk : BlameHunk}
    {ltc : List (Nat × String)} {st' : Detector} {ltc' : List (Nat × String)}
    (h : process_blame_hunk repo st dependent dependent_sha1 parent path
      blame_hunk ltc = .ok (st', ltc'))
    (hr : RepoWF H repo) (hc : CommitsWF H st) :
    Step H repo dependent_sha1 st st' ∧
    (blame_hunk.orig_commit_id ≠ dependent_sha1 →
      NoSelfEdge st.dependencies → NoSelfEdge st'.dependencies) := by
  unfold process_blame_hunk at h
  simp only [] at h
  rcases hg : get_commit repo st blame_hunk.orig_commit_id with msg | p
  · rw [hg] at h
    simp only [bind, Except.bind] at h
    cases h
  · obtain ⟨dependency, st1⟩ := p
    rw [hg] at h
    simp only [bind, Except.bind] at h
    obtain ⟨hdepH, hid, hc1⟩ := get_commit_wf hg hr hc
    have step1 : Step H repo dependent_sha1 st st1 := get_commit_step _ hg
    have hdeps1 : st1.dependencies = st.dependencies := (get_commit_frame hg).1.2.1
    rcases hex : is_excluded repo st1 dependency with msg | q
    · rw [hex] at h
      simp only [bind, Except.bind] at h
      cases h
    · obtain ⟨excluded, st2⟩ := q
      rw [hex] at h
      simp only [bind, Except.bind] at h
      have hc2 : CommitsWF H st2 := is_excluded_wf hex hr hc1
      have step2 : Step H repo dependent_sha1 st st2 :=
        step_trans step1 (is_excluded_step _ hex)
      have hdeps2 : st2.dependencies = st.dependencies := by
        rw [(is_excluded_frame hex).2.1, hdeps1]
      by_cases he : excluded = true
      · subst he
        simp only [if_true] at h
        simp only [pure, Except.pure, Except.ok.injEq, Prod.mk.injEq] at h
        obtain ⟨rfl, -⟩ := h
        refine ⟨step2, fun _ hns => ?_⟩
        rw [hdeps2]
        exact hns
      · rw [Bool.not_eq_true] at he
        subst he
        simp only [Bool.false_eq_true, if_false] at h
        rcases hal : alget st2.dependencies dependent_sha1 with _ | depmap
        · rw [hal] at h
          simp only [bind, Except.bind] at h
          cases h
        · rw [hal] at h
          simp only [bind, Except.bind] at h
          by_cases hin : (!alhas depmap blame_hunk.orig_commit_id) = true
          · simp only [hin, if_true] at h
            rcases hpnd : process_new_dependency st2 dependent dependent_sha1
                dependency blame_hunk.orig_commit_id path
                blame_hunk.final_start_line_number with msg | st3
            · rw [hpnd] at h
              cases h
            · rw [hpnd] at h
              simp only [] at h
              have step3 : Step H repo dependent_sha1 st2 st3 :=
                process_new_dependency_step hpnd hdepH hid
              have hns3 : blame_hunk.orig_commit_id ≠ dependent_sha1 →
                  NoSelfEdge st.dependencies → NoSelfEdge st3.dependencies := by
                intro hne hns
                rcases (process_new_dependency_char hpnd).2.2.2.2.2.1 with
                  hsame | ⟨dm, hdm, hset⟩
                · rw [hsame, hdeps2]
                  exact hns
                · rw [hset, hdeps2]
                  rw [hdeps2] at hdm
                  exact noSelfEdge_insert hns hdm hne
              split at h
              · cases h
              · rename_i st4 hrec
                simp only [pure, Except.pure, Except.ok.injEq,
                  Prod.mk.injEq] at h
                obtain ⟨rfl, -⟩ := h
                refine ⟨step_trans (step_trans step2 step3)
                  (record_dependency_source_step hrec), fun hne hns => ?_⟩
                exact (record_dependency_source_effects hrec).2.2.2.2
                  (hns3 hne hns)
          · simp only [hin, Bool.false_eq_true, if_false] at h
            simp only [pure, Except.pure] at h
            split at h
            · cases h
            · rename_i st4 hrec
              simp only [pure, Except.pure, Except.ok.injEq,
                Prod.mk.injEq] at h
              obtain ⟨rfl, -⟩ := h
              refine ⟨step_trans step2 (record_dependency_source_step hrec),
                fun hne hns => ?_⟩
              refine (record_dependency_source_effects hrec).2.2.2.2 ?_
              rw [hdeps2]
              exact hns

theorem Step.options_eq {H : List Commit} {repo : Repo} {dsha : String}
    {st st' : Detector} (s : Step H repo dsha st st') :
    st'.options = st.options := s.1

theorem Step.done_eq {H : List Commit} {repo : Repo} {dsha : String}
    {st st' : Detector} (s : Step H repo dsha st st') : st'.done = st.done :=
  s.2.1

theorem Step.done_d_eq {H : List Commit} {repo : Repo} {dsha : String}
    {st st' : Detector} (s : Step H repo dsha st st') :
    st'.done_d = st.done_d := s.2.2.1

theorem Step.todo_ext {H : List Commit} {repo : Repo} {dsha : String}
    {st st' : Detector} (s : Step H repo dsha st st') :
    ∃ extra, st'.todo = st.todo ++ extra := s.2.2.2.1

theorem Step.doneEvents_eq {H : List Commit} {repo : Repo} {dsha : String}
    {st st' : Detector} (s : Step H repo dsha st st') :
    doneEvents st'.events = doneEvents st.events := s.2.2.2.2.2.1

theorem Step.allDone_eq {H : List Commit} {repo : Repo} {dsha : String}
    {st st' : Detector} (s : Step H repo dsha st st') :
    countEvent st'.events Event.all_done = countEvent st.events Event.all_done :=
  s.2.2.2.2.2.2.1

theorem Step.deps_mono {H : List Commit} {repo : Repo} {dsha : String}
    {st st' : Detector} (s : Step H repo dsha st st') :
    ∀ k, alhas st.dependencies k = true → alhas st'.dependencies k = true :=
  s.2.2.2.2.2.2.2.1

theorem Step.commitsWF {H : List Commit} {repo : Repo} {dsha : String}
    {st st' : Detector} (s : Step H repo dsha st st') :
    RepoWF H repo → CommitsWF H st → CommitsWF H st' := s.2.2.2.2.2.2.2.2.1

theorem Step.todoOK {H : List Commit} {repo : Repo} {dsha : String}
    {st st' : Detector} (s : Step H repo dsha st st') :
    RepoWF H repo → CommitsWF H st → alhas st.dependencies dsha = true →
    TodoOK H dsha st → TodoOK H dsha st' := s.2.2.2.2.2.2.2.2.2

/-- The blame-hunk loop is a `Step` and creates no self-edge as long as no
blame result names the dependent. -/
theorem process_blame_hunks_step {H : List Commit} {repo : Repo}
    {dependent : Commit} {dependent_sha1 : String} {parent : Commit}
    {path : String} :
    ∀ {bhs : List BlameHunk} {st : Detector} {ltc : List (Nat × String)}
      {st' : Detector} {ltc' : List (Nat × String)},
    process_blame_hunks repo dependent dependent_sha1 parent path bhs st ltc =
      .ok (st', ltc') →
    RepoWF H repo → CommitsWF H st →
    Step H repo dependent_sha1 st st' ∧
    ((∀ bh ∈ bhs, bh.orig_commit_id ≠ dependent_sha1) →
      NoSelfEdge st.dependencies → NoSelfEdge st'.dependencies) := by
  intro bhs
  induction bhs with
  | nil =>
    intro st ltc st' ltc' h hr hc
    unfold process_blame_hunks at h
    cases h
    exact ⟨step_refl _ _ _ _, fun _ hns => hns⟩
  | cons bh rest ih =>
    intro st ltc st' ltc' h hr hc
    unfold process_blame_hunks at h
    rcases hph : process_blame_hunk repo st dependent dependent_sha1 parent
        path bh ltc with msg | p
    · rw [hph] at h
      simp only [bind, Except.bind] at h
      cases h
    · obtain ⟨st1, ltc1⟩ := p
      rw [hph] at h
      simp only [bind, Except.bind] at h
      obtain ⟨s1, n1⟩ := process_blame_hunk_step hph hr hc
      obtain ⟨s2, n2⟩ := ih h hr (s1.commitsWF hr hc)
      refine ⟨step_trans s1 s2, fun hall hns => ?_⟩
      exact n2 (fun b hb => hall b (List.mem_cons_of_mem bh hb))
        (n1 (hall bh (List.mem_cons_self bh rest)) hns)

/-- `blame_diff_hunk` is a `Step`; its worklist well-formedness preservation
needs no precondition on the graph, and no self-edge is created as long as
no blame result for this hunk names the dependent. -/
theorem blame_diff_hunk_step {H : List Commit} {repo : Repo} {st : Detector}
    {dependent parent : Commit} {path : String} {hunk : Hunk} {st' : Detector}
    (h : blame_diff_hunk repo st dependent parent path hunk = .ok st')
    (hr : RepoWF H repo) (hc : CommitsWF H st) :
    Step H repo dependent.id st st' ∧
    (TodoOK H dependent.id st → TodoOK H dependent.id st') ∧
    ((∀ bh ∈ run_blame repo st.options hunk parent path,
        bh.orig_commit_id ≠ dependent.id) →
      NoSelfEdge st.dependencies → NoSelfEdge st'.dependencies) := by
  unfold blame_diff_hunk at h
  by_cases htl : (!gitObjTruthy (tree_lookup repo path parent)) = true
  · simp only [htl, if_true] at h
    have := except_pure_ok h
    subst this
    exact ⟨step_refl _ _ _ _, fun ht => ht, fun _ hns => hns⟩
  · simp only [htl, Bool.false_eq_true, if_false] at h
    simp only [bind, Except.bind] at h
    obtain ⟨ho1, ht1, htd1, hd1, hdd1, hcm1, hhas1, hmono1, hev1⟩ :=
      register_new_dependent_facts st dependent dependent.id
    have hc1 : CommitsWF H (register_new_dependent st dependent dependent.id) := by
      intro kv hkv
      rw [hcm1] at hkv
      exact hc kv hkv
    rcases hhunks : process_blame_hunks repo dependent dependent.id parent path
        (run_blame repo st.options hunk parent path)
        (register_new_dependent st dependent dependent.id) [] with msg | p
    · rw [hhunks] at h
      simp only [] at h
      cases h
    · obtain ⟨st2, ltc⟩ := p
      rw [hhunks] at h
      simp only [] at h
      rcases hdb : debug_hunk hunk ltc with msg | u
      · rw [hdb] at h
        cases h
      · rw [hdb] at h
        have := except_pure_ok h
        subst this
        obtain ⟨s2, n2⟩ := process_blame_hunks_step hhunks hr hc1
        have sreg : Step H repo dependent.id st
            (register_new_dependent st dependent dependent.id) :=
          register_new_dependent_step H repo st dependent dependent.id
        refine ⟨step_trans sreg s2, ?_, ?_⟩
        · intro ht
          have htreg : TodoOK H dependent.id
              (register_new_dependent st dependent dependent.id) := by
            unfold TodoOK at ht ⊢
            rw [ht1, htd1, hdd1]
            exact ht
          exact s2.todoOK hr hc1 hhas1 htreg
        · intro hall hns
          refine n2 hall ?_
          exact register_new_dependent_noSelfEdge st dependent dependent.id hns

/-- The hunk loop over one patch. -/
theorem blame_hunks_in_patch_step {H : List Commit} {repo : Repo}
    {dependent parent : Commit} {path : String} :
    ∀ {hunks : List Hunk} {st st' : Detector},
    blame_hunks_in_patch repo dependent parent path hunks st = .ok st' →
    RepoWF H repo → CommitsWF H st →
    Step H repo dependent.id st st' ∧
    (TodoOK H dependent.id st → TodoOK H dependent.id st') ∧
    ((∀ hk ∈ hunks, ∀ bh ∈ run_blame repo st.options hk parent path,
        bh.orig_commit_id ≠ dependent.id) →
      NoSelfEdge st.dependencies → NoSelfEdge st'.dependencies) := by
  intro hunks
  induction hunks with
  | nil =>
    intro st st' h hr hc
    unfold blame_hunks_in_patch at h
    cases h
    exact ⟨step_refl _ _ _ _, fun ht => ht, fun _ hns => hns⟩
  | cons hk rest ih =>
    intro st st' h hr hc
    unfold blame_hunks_in_patch at h
    rcases hbd : blame_diff_hunk repo st dependent parent path hk with msg | st1
    · rw [hbd] at h
      simp only [bind, Except.bind] at h
      cases h
    · rw [hbd] at h
      simp only [bind, Except.bind] at h
      obtain ⟨s1, t1, n1⟩ := blame_diff_hunk_step hbd hr hc
      obtain ⟨s2, t2, n2⟩ := ih h hr (s1.commitsWF hr hc)
      refine ⟨step_trans s1 s2, fun ht => t2 (t1 ht), fun hall hns => ?_⟩
      refine n2 (fun hk2 hm2 => ?_) (n1 (hall hk (List.mem_cons_self hk rest)) hns)
      rw [s1.options_eq]
      exact hall hk2 (List.mem_cons_of_mem hk hm2)

/-- The patch loop of `find_dependencies_with_parent`. -/
theorem find_dependencies_with_parent_go_step {H : List Commit} {repo : Repo}
    {dependent parent : Commit} :
    ∀ {patches : List Patch} {st st' : Detector},
    find_dependencies_with_parent_go repo dependent parent patches st = .ok st' →
    RepoWF H repo → CommitsWF H st →
    Step H repo dependent.id st st' ∧
    (TodoOK H dependent.id st → TodoOK H dependent.id st') ∧
    ((∀ pt ∈ patches, ∀ hk ∈ pt.hunks,
        ∀ bh ∈ run_blame repo st.options hk parent pt.old_file_path,
        bh.orig_commit_id ≠ dependent.id) →
      NoSelfEdge st.dependencies → NoSelfEdge st'.dependencies) := by
  intro patches
  induction patches with
  | nil =>
    intro st st' h hr hc
    unfold find_dependencies_with_parent_go at h
    cases h
    exact ⟨step_refl _ _ _ _, fun ht => ht, fun _ hns => hns⟩
  | cons pt rest ih =>
    intro st st' h hr hc
    unfold find_dependencies_with_parent_go at h
    rcases hbp : blame_hunks_in_patch repo dependent parent pt.old_file_path
        pt.hunks st with msg | st1
    · rw [hbp] at h
      simp only [bind, Except.bind] at h
      cases h
    · rw [hbp] at h
      simp only [bind, Except.bind] at h
      obtain ⟨s1, t1, n1⟩ := blame_hunks_in_patch_step hbp hr hc
      obtain ⟨s2, t2, n2⟩ := ih h hr (s1.commitsWF hr hc)
      refine ⟨step_trans s1 s2, fun ht => t2 (t1 ht), fun hall hns => ?_⟩
      refine n2 (fun pt2 hm2 hk2 hhk2 => ?_)
        (n1 (fun hk2 hm2 => hall pt (List.mem_cons_self pt rest) hk2 hm2) hns)
      rw [s1.options_eq]
      exact hall pt2 (List.mem_cons_of_mem pt hm2) hk2 hhk2

/-- `find_dependencies_with_parent` over the backend diff. -/
theorem find_dependencies_with_parent_step {H : List Commit} {repo : Repo}
    {st : Detector} {dependent parent : Commit} {st' : Detector}
    (h : find_dependencies_with_parent repo st dependent parent = .ok st')
    (hr : RepoWF H repo) (hc : CommitsWF H st) :
    Step H repo dependent.id st st' ∧
    (TodoOK H dependent.id st → TodoOK H dependent.id st') ∧
    ((∀ pt ∈ repo.diff parent.id dependent.id st.options.context_lines,
        ∀ hk ∈ pt.hunks,
        ∀ bh ∈ run_blame repo st.options hk parent pt.old_file_path,
        bh.orig_commit_id ≠ dependent.id) →
      NoSelfEdge st.dependencies → NoSelfEdge st'.dependencies) := by
  unfold find_dependencies_with_parent at h
  exact find_dependencies_with_parent_go_step h hr hc

/-- No blame over a commit's first parent ever names the commit itself
(line attribution over the parent's tree only reaches the parent's
history). -/
def NoSelfBlame (repo : Repo) : Prop :=
  ∀ (child parent : Commit) (pid : String), child.parents.head? = some pid →
    repo.commitObjOf pid = some parent →
    ∀ (opts : Options) (hunk : Hunk) (path : String) (bh : BlameHunk),
      bh ∈ run_blame repo opts hunk parent path → bh.orig_commit_id ≠ child.id

/-- Everything one full worklist iteration (after the pop) does to the
state. -/
theorem process_popped_spec {H : List Commit} {repo : Repo} {st : Detector}
    {c : Commit} {st' : Detector}
    (h : process_popped repo st c = .ok st')
    (hr : RepoWF H repo) (hc : CommitsWF H st) :
    st'.options = st.options ∧
    st'.done = st.done ++ [c.id] ∧
    st'.done_d = dset st.done_d c.id ∧
    (∃ extra, st'.todo = st.todo ++ extra) ∧
    doneEvents st'.events = doneEvents st.events ++ [c.id] ∧
    countEvent st'.events Event.all_done = countEvent st.events Event.all_done ∧
    CommitsWF H st' ∧
    (TodoOK H c.id st →
      st'.todo_d = st'.todo.map (fun x => x.id) ∧
      (st'.todo.map (fun x => x.id)).Nodup ∧
      (∀ x ∈ st'.todo, x ∈ H ∧ x.id ∉ st.done_d ∧ x.id ≠ c.id)) ∧
    (NoSelfBlame repo → NoSelfEdge st.dependencies →
      NoSelfEdge st'.dependencies) := by
  unfold process_popped at h
  simp only [bind, Except.bind, Detector.notify] at h
  rcases hp : c.parents with _ | ⟨p, ps⟩
  · rw [hp] at h
    simp only [pure, Except.pure] at h
    cases h
    refine ⟨rfl, rfl, rfl, ⟨[], by simp⟩, ?_, ?_, ?_, ?_, ?_⟩
    · rw [doneEvents_append_done, doneEvents_append_inner _ _ (by trivial)]
    · rw [countEvent_append_done, countEvent_append_inner _ _ (by trivial)]
    · exact hc
    · intro ht
      obtain ⟨htd, hnd, hmem⟩ := ht
      exact ⟨htd, hnd, hmem⟩
    · intro _ hns
      exact hns
  · rw [hp] at h
    simp only [] at h
    rcases hpo : repo.commitObjOf p with _ | parent
    · rw [hpo] at h
      simp only [] at h
      cases h
    · rw [hpo] at h
      simp only [] at h
      rcases hwp : find_dependencies_with_parent repo
          { st with events := st.events ++ [Event.new_commit c.id] } c parent
          with msg | stMid
      · rw [hwp] at h
        simp only [] at h
        cases h
      · rw [hwp] at h
        simp only [] at h
        cases h
        have hcN : CommitsWF H
            { st with events := st.events ++ [Event.new_commit c.id] } := by
          intro kv hkv
          exact hc kv hkv
        obtain ⟨sw, tw, nw⟩ := find_dependencies_with_parent_step hwp hr hcN
        refine ⟨sw.options_eq, ?_, ?_, ?_, ?_, ?_, ?_, ?_, ?_⟩
        · rw [sw.done_eq]
        · rw [sw.done_d_eq]
        · obtain ⟨extra, he⟩ := sw.todo_ext
          exact ⟨extra, he⟩
        · rw [doneEvents_append_done, sw.doneEvents_eq,
            doneEvents_append_inner _ _ (by trivial)]
        · rw [countEvent_append_done, sw.allDone_eq,
            countEvent_append_inner _ _ (by trivial)]
        · exact sw.commitsWF hr hcN
        · intro ht
          have htN : TodoOK H c.id
              { st with events := st.events ++ [Event.new_commit c.id] } := ht
          obtain ⟨htd, hnd, hmem⟩ := tw htN
          refine ⟨htd, hnd, ?_⟩
          intro x hx
          rcases hmem x hx with ⟨m1, m2, m3⟩
          rw [sw.done_d_eq] at m2
          exact ⟨m1, m2, m3⟩
        · intro hnsb hns
          refine nw ?_ hns
          intro pt hpt hk hhk bh hbh
          exact hnsb c parent p (by rw [hp]; rfl) hpo _ hk pt.old_file_path bh hbh

/-! ## The worklist loop: invariant, measure, termination -/

/-- The distinct commit ids of the history. -/
def histIds (H : List Commit) : List String :=
  (H.map (fun c => c.id)).dedup

/-- The loop invariant of `find_dependencies`' worklist. -/
def Inv (H : List Commit) (st : Detector) : Prop :=
  st.todo_d = st.todo.map (fun c => c.id) ∧
  (st.todo.map (fun c => c.id)).Nodup ∧
  (∀ c ∈ st.todo, c ∈ H ∧ c.id ∉ st.done_d) ∧
  st.done = st.done_d ∧
  st.done_d.Nodup ∧
  (∀ s ∈ st.done_d, s ∈ histIds H) ∧
  CommitsWF H st ∧
  doneEvents st.events = st.done ∧
  countEvent st.events Event.all_done = 0

/-- The termination measure: commits still undone weigh a full queue's
worth, plus the current queue length. -/
def detMeasure (H : List Commit) (st : Detector) : Nat :=
  ((histIds H).length - st.done_d.length) * ((histIds H).length + 1) +
    st.todo.length

theorem length_le_histIds {H : List Commit} {l : List String}
    (hnd : l.Nodup) (hsub : ∀ s ∈ l, s ∈ histIds H) :
    l.length ≤ (histIds H).length := by
  classical
  have h1 : l.toFinset.card = l.length := List.toFinset_card_of_nodup hnd
  have h2 : l.toFinset ⊆ (histIds H).toFinset := by
    intro x hx
    exact List.mem_toFinset.2 (hsub x (List.mem_toFinset.1 hx))
  calc l.length = l.toFinset.card := h1.symm
    _ ≤ (histIds H).toFinset.card := Finset.card_le_card h2
    _ ≤ (histIds H).length := List.toFinset_card_le _

theorem mem_histIds {H : List Commit} {c : Commit} (h : c ∈ H) :
    c.id ∈ histIds H :=
  List.mem_dedup.2 (List.mem_map_of_mem (fun c => c.id) h)

/-- The worklist loop terminates within the measure, ending (when no fatal
abort happens) with an empty queue, unique processing, exactly one
`all_done`, and — when blame never names the dependent — no self-edges. -/
theorem todo_loop_spec {H : List Commit} {repo : Repo} (hr : RepoWF H repo) :
    ∀ (n : Nat) (st : Detector), detMeasure H st ≤ n → Inv H st →
    (∃ msg, todo_loop repo (n + 1) st = .fatal msg) ∨
    (∃ st', todo_loop repo (n + 1) st = .ok st' ∧ st'.todo = [] ∧
      st'.done = st'.done_d ∧ st'.done.Nodup ∧
      doneEvents st'.events = st'.done ∧
      countEvent st'.events Event.all_done = 1 ∧
      (NoSelfBlame repo → NoSelfEdge st.dependencies →
        NoSelfEdge st'.dependencies)) := by
  intro n
  induction n using Nat.strong_induction_on with
  | _ n ih =>
    intro st hm hinv
    obtain ⟨htd, hnodup, htodoH, hdone_eq, hddnodup, hddsub, hcwf, hde, hce⟩ :=
      hinv
    rcases htodo : st.todo with _ | ⟨c, rest⟩
    · right
      refine ⟨st.notify .all_done, ?_, htodo, hdone_eq, ?_, ?_, ?_, ?_⟩
      · simp only [todo_loop, htodo]
      · show st.done.Nodup
        rw [hdone_eq]
        exact hddnodup
      · show doneEvents (st.events ++ [Event.all_done]) = st.done
        rw [(events_append_all_done st.events).2, hde]
      · show countEvent (st.events ++ [Event.all_done]) Event.all_done = 1
        rw [(events_append_all_done st.events).1, hce]
      · intro _ hns
        exact hns
    · rw [htodo] at htd
      have hcid_mem : c.id ∈ st.todo_d := by
        rw [htd]
        exact List.mem_cons_self _ _
      have hcontains : st.todo_d.contains c.id = true := List.elem_iff.2 hcid_mem
      have hcH : c ∈ H := (htodoH c (by rw [htodo]; exact List.mem_cons_self _ _)).1
      have hcnotdone : c.id ∉ st.done_d :=
        (htodoH c (by rw [htodo]; exact List.mem_cons_self _ _)).2
      have hdc : st.done_d.contains c.id = false := by
        rcases hcon : st.done_d.contains c.id with _ | _
        · rfl
        · exact absurd (List.elem_iff.1 hcon) hcnotdone
      have herase : st.todo_d.erase c.id = rest.map (fun x => x.id) := by
        rw [htd]
        exact List.erase_cons_head _ _
      have hrestnodup : (rest.map (fun x => x.id)).Nodup := by
        rw [htodo] at hnodup
        exact (List.nodup_cons.1 hnodup).2
      have hcid_notin_rest : c.id ∉ rest.map (fun x => x.id) := by
        rw [htodo] at hnodup
        exact (List.nodup_cons.1 hnodup).1
      have hloop_eq : todo_loop repo (n + 1) st =
          (match process_popped repo
              { st with todo := rest, todo_d := st.todo_d.erase c.id } c with
          | .error e => RunResult.fatal e
          | .ok st2 => todo_loop repo n st2) := by
        simp only [todo_loop, htodo, hcontains, if_true, hdc,
          Bool.false_eq_true, if_false]
      rcases hpp : process_popped repo
          { st with todo := rest, todo_d := st.todo_d.erase c.id } c
          with msg | st2
      · left
        refine ⟨msg, ?_⟩
        rw [hloop_eq, hpp]
      · have hc1 : CommitsWF H
            { st with todo := rest, todo_d := st.todo_d.erase c.id } := hcwf
        obtain ⟨po, pdone, pdone_d, ⟨extra, ptodo⟩, pde, pce, pcwf, ptodoOK,
          pns⟩ := process_popped_spec hpp hr hc1
        have htOK : TodoOK H c.id
            { st with todo := rest, todo_d := st.todo_d.erase c.id } := by
          refine ⟨herase, hrestnodup, ?_⟩
          intro x hx
          have hx' : x ∈ st.todo := by
            rw [htodo]
            exact List.mem_cons_of_mem c hx
          refine ⟨(htodoH x hx').1, (htodoH x hx').2, ?_⟩
          intro he
          exact hcid_notin_rest (he ▸ List.mem_map_of_mem (fun y => y.id) hx)
        obtain ⟨qtd, qnodup, qmem⟩ := ptodoOK htOK
        have hdset : dset st.done_d c.id = st.done_d ++ [c.id] :=
          dset_eq_append _ _ hdc
        have hinv2 : Inv H st2 := by
          refine ⟨qtd, qnodup, ?_, ?_, ?_, ?_, pcwf, ?_, ?_⟩
          · intro x hx
            rcases qmem x hx with ⟨m1, m2, m3⟩
            refine ⟨m1, ?_⟩
            rw [pdone_d]
            intro hmem2
            rcases mem_dset _ _ _ hmem2 with hmem3 | hmem3
            · exact m2 hmem3
            · exact m3 hmem3
          · rw [pdone, pdone_d, hdset, hdone_eq]
          · rw [pdone_d, hdset]
            refine List.Nodup.append hddnodup (List.nodup_singleton _) ?_
            intro a ha hb
            rcases List.mem_singleton.1 hb with rfl
            exact hcnotdone ha
          · intro x hx
            rw [pdone_d, hdset] at hx
            rcases List.mem_append.1 hx with hx2 | hx2
            · exact hddsub x hx2
            · rcases List.mem_singleton.1 hx2 with rfl
              exact mem_histIds hcH
          · rw [pde, pdone]
            show doneEvents st.events ++ [c.id] = st.done ++ [c.id]
            rw [hde]
          · rw [pce]
            exact hce
        have hlen_done : st.done_d.length + 1 ≤ (histIds H).length := by
          have : (st.done_d ++ [c.id]).length ≤ (histIds H).length := by
            refine length_le_histIds ?_ ?_
            · refine List.Nodup.append hddnodup (List.nodup_singleton _) ?_
              intro a ha hb
              rcases List.mem_singleton.1 hb with rfl
              exact hcnotdone ha
            · intro x hx
              rcases List.mem_append.1 hx with hx2 | hx2
              · exact hddsub x hx2
              · rcases List.mem_singleton.1 hx2 with rfl
                exact mem_histIds hcH
          simpa using this
        have hlen_todo2 : st2.todo.length ≤ (histIds H).length := by
          have h1 : (st2.todo.map (fun x => x.id)).length ≤
              (histIds H).length := by
            refine length_le_histIds qnodup ?_
            intro x hx
            rcases List.mem_map.1 hx with ⟨y, hy, he⟩
            rcases qmem y hy with ⟨m1, -, -⟩
            rw [← he]
            exact mem_histIds m1
          simpa using h1
        have hmeas2 : detMeasure H st2 < detMeasure H st := by
          unfold detMeasure
          rw [pdone_d, hdset, htodo]
          have hlen : (st.done_d ++ [c.id]).length = st.done_d.length + 1 := by
            simp
          rw [hlen]
          have hexp : ((histIds H).length - st.done_d.length) *
              ((histIds H).length + 1) =
              ((histIds H).length - (st.done_d.length + 1)) *
                ((histIds H).length + 1) + ((histIds H).length + 1) := by
            have hsub : (histIds H).length - st.done_d.length =
                ((histIds H).length - (st.done_d.length + 1)) + 1 := by
              omega
            rw [hsub, Nat.succ_mul]
          rw [hexp]
          simp only [List.length_cons]
          omega
        have hn1 : n - 1 + 1 = n := by
          have : 1 ≤ detMeasure H st := by
            unfold detMeasure
            rw [htodo]
            simp only [List.length_cons]
            omega
          omega
        have hmeas2' : detMeasure H st2 ≤ n - 1 := by omega
        rcases ih (n - 1) (by omega) st2 hmeas2' hinv2 with
          ⟨msg, hres⟩ | ⟨st', hres, e1, e2, e3, e4, e5, e6⟩
        · left
          refine ⟨msg, ?_⟩
          rw [hloop_eq, hpp, ← hres, hn1]
        · right
          refine ⟨st', ?_, e1, e2, e3, e4, e5, ?_⟩
          · rw [hloop_eq, hpp, ← hres, hn1]
          · intro hnsb hns
            exact e6 hnsb (pns hnsb hns)

/-! ## Concrete fixtures used by witnesses and counterexamples -/

/-- A typical options object: recursion on, no exclusions, native blame. -/
def optsFix : Options :=
  { recurse := true, context_lines := 1, exclude_commits := none,
    pygit2_blame := true }

/-- A root commit. -/
def cRoot : Commit := { id := "aa", parents := [] }

/-- A child commit of `cRoot`. -/
def cChild : Commit := { id := "bb", parents := ["aa"] }

/-- A one-line hunk with no stored diff lines. -/
def hunkFix : Hunk :=
  { old_start := 1, old_lines := 1, new_start := 1, new_lines := 1,
    lines := [] }

/-- A two-commit repository in which `cChild` modifies a line that blame
attributes to `cRoot`. -/
def repoFix : Repo :=
  { history := [cRoot, cChild]
  , refResolve := fun s =>
      if s == "aa" then some cRoot else if s == "bb" then some cChild else none
  , commitObjOf := fun s =>
      if s == "aa" then some cRoot else if s == "bb" then some cChild else none
  , treeOf := fun _ => .tree [("f", .blob)]
  , diff := fun p c _ =>
      if p == "aa" && c == "bb" then [{ old_file_path := "f", hunks := [hunkFix] }]
      else []
  , blameNative := fun _ newest lo _ =>
      if newest == "aa" then
        [{ orig_commit_id := "aa", orig_start_line_number := lo,
           final_start_line_number := lo, lines_in_hunk := 1 }]
      else []
  , blameSub := fun _ _ _ _ => []
  , mergeBase := fun a _ => a }

/-! ## C2: no duplicate evidence -/

/-- **C2.**  `record_dependency_source` records a tuple at most once: when the
line number is already present for the `(dependent, dependency, path)` triple
the call aborts fatally; otherwise it stores the evidence; and a successful
call keeps every line number at most once in each evidence map. -/
theorem record_dependency_source_dedup :
    ∀ (st : Detector) (parent dependent dependency : Commit)
      (dependent_sha1 dependency_sha1 path : String) (line_num : Nat)
      (line : String) (depmap : DepMap) (dep_sources : PathMap),
      alget st.dependencies dependent_sha1 = some depmap →
      alget depmap dependency_sha1 = some dep_sources →
      ((∃ lm, alget dep_sources path = some lm ∧ alhas lm line_num = true) →
        ∃ msg, record_dependency_source st parent dependent dependent_sha1
          dependency dependency_sha1 path line_num line = .error msg) ∧
      (alhas ((alget dep_sources path).getD []) line_num = false →
        ∃ st', record_dependency_source st parent dependent dependent_sha1
            dependency dependency_sha1 path line_num line = .ok st' ∧
          ∃ depmap' pm' lm',
            alget st'.dependencies dependent_sha1 = some depmap' ∧
            alget depmap' dependency_sha1 = some pm' ∧
            alget pm' path = some lm' ∧
            alget lm' line_num = some line) ∧
      (∀ st', record_dependency_source st parent dependent dependent_sha1
          dependency dependency_sha1 path line_num line = .ok st' →
        NoDupEvidence st.dependencies → NoDupEvidence st'.dependencies) := by
  intro st parent dependent dependency dependent_sha1 dependency_sha1 path
    line_num line depmap dep_sources h1 h2
  refine ⟨?_, ?_, fun st' h hnd => record_dependency_source_noDup h hnd⟩
  · rintro ⟨lm, hlm, hdup⟩
    have hpath : alhas dep_sources path = true := alhas_of_alget hlm
    exact ⟨_, by
      unfold record_dependency_source
      simp only [h1, h2, hpath, Bool.not_true, Bool.false_eq_true, if_false,
        hlm, Option.getD_some, hdup, eq_self_iff_true, if_true]
      rfl⟩
  · intro hfree
    by_cases hpath : alhas dep_sources path = true
    · exact ⟨_, by
        unfold record_dependency_source writeDeps
        simp only [h1, h2, hpath, Bool.not_true, Bool.false_eq_true, if_false,
          Option.getD_some, hfree, Detector.notify]
        rfl,
        ⟨_, _, _, alget_alset_self _ _ _, alget_alset_self _ _ _,
          alget_alset_self _ _ _, alget_alset_self _ _ _⟩⟩
    · rw [Bool.not_eq_true] at hpath
      exact ⟨_, by
        unfold record_dependency_source writeDeps
        simp only [h1, h2, hpath, Bool.not_false, if_true, Detector.notify,
          alget_alset_self, Option.getD_some, alhas_nil,
          Bool.false_eq_true, if_false]
        rfl,
        ⟨_, _, _, alget_alset_self _ _ _, alget_alset_self _ _ _,
          alget_alset_self _ _ _, alget_alset_self _ _ _⟩⟩

/-- A state with one recorded evidence entry: dependent `"d"`, dependency
`"e"`, path `"f"`, line `3`. -/
def stC2 : Detector :=
  { initDetector optsFix with
    dependencies := [("d", [("e", [("f", [(3, "x")])])])] }

/-- Witness for C2: recording line `3` again for the same triple aborts,
while the fresh line `4` is stored. -/
theorem record_dependency_source_dedup_witness :
    (∃ msg, record_dependency_source stC2 cRoot cChild "d" cRoot "e" "f" 3
        "y" = .error msg) ∧
    (∃ st', record_dependency_source stC2 cRoot cChild "d" cRoot "e" "f" 4
        "y" = .ok st' ∧
      ∃ depmap' pm' lm',
        alget st'.dependencies "d" = some depmap' ∧
        alget depmap' "e" = some pm' ∧
        alget pm' "f" = some lm' ∧
        alget lm' 4 = some "y") :=
  ⟨(record_dependency_source_dedup stC2 cRoot cChild cRoot "d" "e" "f" 3 "y"
      [("e", [("f", [(3, "x")])])] [("f", [(3, "x")])] rfl rfl).1
      ⟨[(3, "x")], rfl, rfl⟩,
   (record_dependency_source_dedup stC2 cRoot cChild cRoot "d" "e" "f" 4 "y"
      [("e", [("f", [(3, "x")])])] [("f", [(3, "x")])] rfl rfl).2.1 rfl⟩

/-! ## C1: the shape of `edges()` -/

/-- A detector state holding one dependent with two recorded dependency
keys. -/
def c1State : Detector :=
  { initDetector optsFix with
    dependencies := [("aa", [("bb", []), ("cc", [])])] }

/-- **C1, counterexample.**  On a state with one dependent having two
recorded dependency keys, `edges()` returns a single nested inner list — not
a flat sequence with one element per recorded dependency key, contradicting
the claim that the result is a flat list of `(dependent, dependency)`
pairs. -/
theorem edges_not_flat_counterexample :
    edges c1State = [[("aa", "bb"), ("aa", "cc")]] ∧
    (edges c1State).length ≠ (edges_spec c1State).length := by
  constructor
  · rfl
  · decide

/-- **C1 (amended).**  `edges()` returns a nested list with exactly one inner
list per recorded dependent key; flattening it one level yields the spec's
flat sequence of `(dependent_hash, dependency_hash)` pairs, one per recorded
dependency key. -/
theorem edges_nested_flatten_spec (st : Detector) :
    (edges st).flatten = edges_spec st ∧
    (edges st).length = st.dependencies.length := by
  constructor
  · unfold edges edges_spec
    induction st.dependencies with
    | nil => rfl
    | cons hd tl ih => simp_all
  · unfold edges
    simp

/-! ## C9: hunks whose path is absent from the parent tree are skipped -/

/-- **C9.**  A hunk whose file path does not resolve in the parent commit's
tree is skipped: `blame_diff_hunk` returns the state unchanged (no blame, no
dependent registration, no edges, no events) and does not error.  A path
whose first segment is absent from the tree, or which descends into a blob,
does not resolve. -/
theorem absent_path_skips_hunk :
    (∀ (repo : Repo) (st : Detector) (dependent parent : Commit)
       (path : String) (hunk : Hunk),
       tree_lookup repo path parent = none →
       blame_diff_hunk repo st dependent parent path hunk = .ok st) ∧
    (∀ (dirent : String) (rest : List String)
       (entries : List (String × GitObj)),
       alget entries dirent = none →
       tree_lookup_go (dirent :: rest) (GitObj.tree entries) = none) ∧
    (∀ (dirent : String) (rest : List String),
       tree_lookup_go (dirent :: rest) GitObj.blob = none) := by
  refine ⟨?_, ?_, ?_⟩
  · intro repo st dependent parent path hunk h
    unfold blame_diff_hunk
    rw [h]
    rfl
  · intro dirent rest entries h
    simp only [tree_lookup_go, h]
  · intro dirent rest
    rfl

/-- Witness for C9: in `repoFix` the path `"g"` is absent from the parent's
tree, and the hunk is skipped with the state unchanged. -/
theorem absent_path_skips_hunk_witness :
    tree_lookup repoFix "g" cRoot = none ∧
    blame_diff_hunk repoFix (initDetector optsFix) cChild cRoot "g" hunkFix =
      .ok (initDetector optsFix) :=
  ⟨rfl, absent_path_skips_hunk.1 repoFix (initDetector optsFix) cChild cRoot
    "g" hunkFix rfl⟩

/-! ## C6: the `recurse` parameter of `find_dependencies` is dead -/

/-- Options with recursion disabled. -/
def optsNoRec : Options := { optsFix with recurse := false }

/-- A state mid-processing of dependent `"bb"` with recursion disabled. -/
def stNoRec : Detector :=
  { initDetector optsNoRec with dependencies := [("bb", [])] }

/-- **C6.**  The `recurse` parameter of `find_dependencies` has no effect:
runs differing only in that argument are identical, because after being
defaulted it is never consulted; whether a discovered dependency is enqueued
is decided solely by `options.recurse` inside `process_new_dependency`. -/
theorem recurse_param_no_effect :
    (∀ (repo : Repo) (st : Detector) (dependent_rev : String)
       (r1 r2 : Option Bool) (fuel : Nat),
       find_dependencies repo st dependent_rev r1 fuel =
         find_dependencies repo st dependent_rev r2 fuel) ∧
    (∀ (st : Detector) (dependent : Commit) (dependent_sha1 : String)
       (dependency : Commit) (dependency_sha1 path : String) (line_num : Nat)
       (st' : Detector),
       st.options.recurse = false →
       process_new_dependency st dependent dependent_sha1 dependency
         dependency_sha1 path line_num = .ok st' →
       st'.todo = st.todo) := by
  constructor
  · intro repo st dependent_rev r1 r2 fuel
    rfl
  · intro st dependent dependent_sha1 dependency dependency_sha1 path line_num
      st' hrec h
    unfold process_new_dependency at h
    simp only [bind, Except.bind, pure, Except.pure, Detector.notify, hrec,
      Bool.false_eq_true, if_false] at h
    repeat' split at h
    all_goals cases h
    all_goals rfl

/-- Witness for C6 at concrete inputs: identical runs for both `recurse`
arguments, and no enqueue with recursion disabled. -/
theorem recurse_param_no_effect_witness :
    find_dependencies repoFix (initDetector optsFix) "bb" (some false) 5 =
      find_dependencies repoFix (initDetector optsFix) "bb" (some true) 5 ∧
    stNoRec.options.recurse = false ∧
    ∃ st', process_new_dependency stNoRec cChild "bb" cRoot "aa" "f" 1 =
        .ok st' ∧ st'.todo = stNoRec.todo :=
  ⟨recurse_param_no_effect.1 repoFix (initDetector optsFix) "bb" (some false)
      (some true) 5,
   rfl,
   ⟨_, rfl, recurse_param_no_effect.2 stNoRec cChild "bb" cRoot "aa" "f" 1 _
      rfl rfl⟩⟩

/-! ## C4: termination of the traversal -/

/-- The fixture repo's ref resolution is id-consistent with its two-commit
history. -/
theorem repoFix_wf : RepoWF [cRoot, cChild] repoFix := by
  intro r c h0
  have h : (if (r == "aa") = true then some cRoot
      else if (r == "bb") = true then some cChild else none) = some c := h0
  by_cases h1 : (r == "aa") = true
  · rw [if_pos h1] at h
    cases h
    exact ⟨List.mem_cons_self _ _, (eq_of_beq h1).symm⟩
  · rw [if_neg h1] at h
    by_cases h2 : (r == "bb") = true
    · rw [if_pos h2] at h
      cases h
      exact ⟨List.mem_cons_of_mem _ (List.mem_cons_self _ _),
        (eq_of_beq h2).symm⟩
    · rw [if_neg h2] at h
      cases h

/-- **C4.**  On any id-consistent finite history, `find_dependencies` with
recursion enabled terminates within a fuel of quadratic size: it never runs
out of fuel, and unless a fatal abort happens it ends with an empty
worklist, each commit marked done at most once, one `dependent_done` per
done commit in order, and `all_done` fired exactly once. -/
theorem find_dependencies_terminates {H : List Commit} {repo : Repo}
    {opts : Options} (rev : String) (recurse : Option Bool) {fuel : Nat}
    (hr : RepoWF H repo) (hrec : opts.recurse = true)
    (hfuel : (histIds H).length * ((histIds H).length + 1) + 2 ≤ fuel) :
    (∃ msg, find_dependencies repo (initDetector opts) rev recurse fuel =
      RunResult.fatal msg) ∨
    (∃ st', find_dependencies repo (initDetector opts) rev recurse fuel =
      RunResult.ok st' ∧ st'.todo = [] ∧ st'.done.Nodup ∧
      doneEvents st'.events = st'.done ∧
      countEvent st'.events Event.all_done = 1) := by
  rcases hgc : get_commit repo (initDetector opts) rev with msg | p
  · left
    refine ⟨"abort: InvalidCommitish", ?_⟩
    unfold find_dependencies
    rw [hgc]
  · obtain ⟨c, st0⟩ := p
    have hfd : find_dependencies repo (initDetector opts) rev recurse fuel =
        todo_loop repo fuel
          { st0 with todo := st0.todo ++ [c],
                     todo_d := dset st0.todo_d c.id } := by
      unfold find_dependencies
      rw [hgc]
    have hc0 : CommitsWF H (initDetector opts) := by
      intro kv hkv
      simp [initDetector] at hkv
    obtain ⟨hcH, hcid, hcwf0⟩ := get_commit_wf hgc hr hc0
    obtain ⟨⟨hopts0, hdeps0, htodo0, htd0, hdone0, hdd0, hev0⟩, hbc0⟩ :=
      get_commit_frame hgc
    simp only [initDetector] at htodo0 htd0 hdone0 hdd0 hev0
    have hinv : Inv H { st0 with todo := st0.todo ++ [c],
                                  todo_d := dset st0.todo_d c.id } := by
      refine ⟨?_, ?_, ?_, ?_, ?_, ?_, ?_, ?_, ?_⟩
      · show dset st0.todo_d c.id = (st0.todo ++ [c]).map (fun x => x.id)
        rw [htd0, htodo0]
        simp [dset]
      · show ((st0.todo ++ [c]).map (fun x => x.id)).Nodup
        rw [htodo0]
        simp
      · intro x hx
        have hx' : x ∈ st0.todo ++ [c] := hx
        rw [htodo0] at hx'
        rcases List.mem_singleton.1 (by simpa using hx') with rfl
        refine ⟨hcH, ?_⟩
        show x.id ∉ st0.done_d
        rw [hdd0]
        exact List.not_mem_nil _
      · show st0.done = st0.done_d
        rw [hdone0, hdd0]
      · show st0.done_d.Nodup
        rw [hdd0]
        exact List.nodup_nil
      · intro s hs
        have hs' : s ∈ st0.done_d := hs
        rw [hdd0] at hs'
        exact absurd hs' (List.not_mem_nil s)
      · exact hcwf0
      · show doneEvents st0.events = st0.done
        rw [hev0, hdone0]
        rfl
      · show countEvent st0.events Event.all_done = 0
        rw [hev0]
        rfl
    have hmeas : detMeasure H
        { st0 with todo := st0.todo ++ [c],
                   todo_d := dset st0.todo_d c.id } ≤ fuel - 1 := by
      show ((histIds H).length - st0.done_d.length) * ((histIds H).length + 1)
          + (st0.todo ++ [c]).length ≤ fuel - 1
      rw [hdd0, htodo0]
      simp only [List.length_nil, List.nil_append, List.length_singleton,
        Nat.sub_zero]
      omega
    have hn1 : fuel - 1 + 1 = fuel := by omega
    rcases todo_loop_spec hr (fuel - 1) _ hmeas hinv with
      ⟨msg, hres⟩ | ⟨st', hres, e1, e2, e3, e4, e5, _⟩
    · left
      refine ⟨msg, ?_⟩
      rw [hfd, ← hn1]
      exact hres
    · right
      refine ⟨st', ?_, e1, e3, e4, e5⟩
      rw [hfd, ← hn1]
      exact hres

/-- Witness for C4: the two-commit fixture run from `"bb"` with fuel `10`,
all hypotheses discharged concretely. -/
theorem find_dependencies_terminates_witness :
    RepoWF [cRoot, cChild] repoFix ∧ optsFix.recurse = true ∧
    (histIds [cRoot, cChild]).length *
      ((histIds [cRoot, cChild]).length + 1) + 2 ≤ 10 ∧
    ((∃ msg, find_dependencies repoFix (initDetector optsFix) "bb" none 10 =
        RunResult.fatal msg) ∨
     (∃ st', find_dependencies repoFix (initDetector optsFix) "bb" none 10 =
        RunResult.ok st' ∧ st'.todo = [] ∧ st'.done.Nodup ∧
        doneEvents st'.events = st'.done ∧
        countEvent st'.events Event.all_done = 1)) :=
  ⟨repoFix_wf, rfl, by decide,
    find_dependencies_terminates "bb" none repoFix_wf rfl (by decide)⟩

/-! ## C5: no self-edges -/

/-- For any fuel, a successful worklist loop preserves the absence of
self-edges when blame never names the dependent. -/
theorem todo_loop_noSelfEdge {H : List Commit} {repo : Repo}
    (hr : RepoWF H repo) (hnsb : NoSelfBlame repo) :
    ∀ (fuel : Nat) (st st' : Detector),
      todo_loop repo fuel st = RunResult.ok st' →
      CommitsWF H st → NoSelfEdge st.dependencies →
      NoSelfEdge st'.dependencies := by
  intro fuel
  induction fuel with
  | zero =>
    intro st st' h hcwf hns
    simp only [todo_loop] at h
    cases h
  | succ n ih =>
    intro st st' h hcwf hns
    rcases htodo : st.todo with _ | ⟨c, rest⟩
    · simp only [todo_loop, htodo] at h
      cases h
      exact hns
    · rcases hc1 : st.todo_d.contains c.id with _ | _
      · simp only [todo_loop, htodo, hc1, Bool.false_eq_true, if_false] at h
        cases h
      · simp only [todo_loop, htodo, hc1, if_true] at h
        rcases hc2 : st.done_d.contains c.id with _ | _
        · simp only [hc2, Bool.false_eq_true, if_false] at h
          rcases hpp : process_popped repo
              { st with todo := rest, todo_d := st.todo_d.erase c.id } c
              with msg | st2
          · rw [hpp] at h
            simp only [] at h
            cases h
          · rw [hpp] at h
            simp only [] at h
            obtain ⟨-, -, -, -, -, -, pcwf, -, pns⟩ :=
              process_popped_spec hpp hr hcwf
            exact ih st2 st' h pcwf (pns hnsb hns)
        · simp only [hc2, if_true] at h
          exact ih _ st' h hcwf hns

/-- **C5.**  Assuming blame over the first parent never names the dependent
itself, the dependency graph contains no self-edge at any point: every
worklist iteration preserves the absence of self-edges, and a full discovery
run from a fresh detector ends with a graph free of self-edges. -/
theorem no_self_edge_invariant {H : List Commit} {repo : Repo}
    (hr : RepoWF H repo) (hnsb : NoSelfBlame repo) :
    (∀ (st : Detector) (c : Commit) (st' : Detector),
       CommitsWF H st → process_popped repo st c = Except.ok st' →
       NoSelfEdge st.dependencies → NoSelfEdge st'.dependencies) ∧
    (∀ (opts : Options) (rev : String) (recurse : Option Bool) (fuel : Nat)
       (st' : Detector),
       find_dependencies repo (initDetector opts) rev recurse fuel =
         RunResult.ok st' → NoSelfEdge st'.dependencies) := by
  constructor
  · intro st c st' hcwf hpp hns
    obtain ⟨-, -, -, -, -, -, -, -, pns⟩ := process_popped_spec hpp hr hcwf
    exact pns hnsb hns
  · intro opts rev recurse fuel st' h
    unfold find_dependencies at h
    rcases hgc : get_commit repo (initDetector opts) rev with msg | p
    · rw [hgc] at h
      simp only [] at h
      cases h
    · obtain ⟨c, st0⟩ := p
      rw [hgc] at h
      simp only [] at h
      have hc0 : CommitsWF H (initDetector opts) := by
        intro kv hkv
        simp [initDetector] at hkv
      obtain ⟨-, -, hcwf0⟩ := get_commit_wf hgc hr hc0
      obtain ⟨⟨-, hdeps0, -, -, -, -, -⟩, -⟩ := get_commit_frame hgc
      refine todo_loop_noSelfEdge hr hnsb fuel _ st' h hcwf0 ?_
      show NoSelfEdge st0.dependencies
      rw [hdeps0]
      intro p hp
      simp [initDetector] at hp

/-- A variant of the two-commit fixture whose blame provider returns no
hunks at all, so it trivially never names the dependent. -/
def repoNoBlame : Repo :=
  { repoFix with blameNative := fun _ _ _ _ => [] }

theorem repoNoBlame_wf : RepoWF [cRoot, cChild] repoNoBlame :=
  fun r c h => repoFix_wf r c h

theorem repoNoBlame_noSelfBlame : NoSelfBlame repoNoBlame := by
  intro child parent pid hhead hobj opts hunk path bh hbh
  unfold run_blame at hbh
  rcases hpb : opts.pygit2_blame with _ | _
  · rw [hpb] at hbh
    simp only [Bool.false_eq_true, if_false] at hbh
    simp [repoNoBlame, repoFix] at hbh
  · rw [hpb] at hbh
    simp only [if_true] at hbh
    simp [repoNoBlame] at hbh

/-- Witness for C5: a complete run on the blame-free fixture succeeds and
its final graph has no self-edges. -/
theorem no_self_edge_invariant_witness :
    RepoWF [cRoot, cChild] repoNoBlame ∧ NoSelfBlame repoNoBlame ∧
    ∃ st', find_dependencies repoNoBlame (initDetector optsFix) "bb" none 10 =
        RunResult.ok st' ∧ NoSelfEdge st'.dependencies :=
  ⟨repoNoBlame_wf, repoNoBlame_noSelfBlame,
    ⟨_, rfl, (no_self_edge_invariant repoNoBlame_wf
      repoNoBlame_noSelfBlame).2 optsFix "bb" none 10 _ rfl⟩⟩

/-! ## C7: the commit cache never recognizes a commit object -/

/-- A state whose commit cache holds one string-keyed entry. -/
def stC7 : Detector :=
  { initDetector optsFix with commits := [(PyKey.str "aa", cRoot)] }

/-- **C7.**  `seen_commit` on a commit object always returns `false` when the
cache holds only revision-string keys (as it always does: `get_commit` is the
only writer and inserts string keys); hence a successful
`process_new_dependency` on such a state always fires `new_commit` for the
dependency (followed by `new_dependency`), in addition to the `new_commit`
fired at every worklist pop — so one commit can receive several `new_commit`
notifications in one run, as the concrete two-commit run shows for `"aa"`. -/
theorem seen_commit_always_false :
    (∀ (st : Detector) (i : String),
       (∀ kv ∈ st.commits, ∃ s, kv.1 = PyKey.str s) →
       seen_commit st (PyKey.commitObj i) = false) ∧
    (∀ (repo : Repo) (st : Detector) (rev : String) (c : Commit)
       (st' : Detector),
       get_commit repo st rev = Except.ok (c, st') →
       (∀ kv ∈ st.commits, ∃ s, kv.1 = PyKey.str s) →
       ∀ kv ∈ st'.commits, ∃ s, kv.1 = PyKey.str s) ∧
    (∀ (st : Detector) (dependent : Commit) (dependent_sha1 : String)
       (dependency : Commit) (dependency_sha1 path : String) (line_num : Nat)
       (st' : Detector),
       (∀ kv ∈ st.commits, ∃ s, kv.1 = PyKey.str s) →
       process_new_dependency st dependent dependent_sha1 dependency
         dependency_sha1 path line_num = Except.ok st' →
       st'.events = st.events ++ [Event.new_commit dependency.id,
         Event.new_dependency dependent.id dependency.id path line_num]) ∧
    (∃ st', find_dependencies repoFix (initDetector optsFix) "bb" none 10 =
        RunResult.ok st' ∧
      countEvent st'.events (Event.new_commit "aa") = 2) := by
  have h1 : ∀ (st : Detector) (i : String),
      (∀ kv ∈ st.commits, ∃ s, kv.1 = PyKey.str s) →
      seen_commit st (PyKey.commitObj i) = false := by
    intro st i hstr
    unfold seen_commit alhas
    rw [List.any_eq_false]
    intro kv hkv
    rcases hstr kv hkv with ⟨s, hs⟩
    rw [hs]
    simp
  refine ⟨h1, ?_, ?_, ?_⟩
  · intro repo st rev c st' h hstr
    unfold get_commit at h
    rcases hcache : alget st.commits (PyKey.str rev) with _ | c0
    · rw [hcache] at h
      rcases href : repo.refResolve rev with _ | c1
      · rw [href] at h
        cases h
      · rw [href] at h
        cases h
        intro kv hkv
        rcases mem_alset _ _ _ _ hkv with hold | hnew
        · exact hstr kv hold
        · rw [hnew]
          exact ⟨rev, rfl⟩
    · rw [hcache] at h
      cases h
      exact hstr
  · intro st dependent dependent_sha1 dependency dependency_sha1 path line_num
      st' hstr h
    exact (process_new_dependency_char h).2.2.2.2.2.2.2
      (h1 st dependency.id hstr)
  · exact ⟨_, rfl, by decide⟩

/-- Witness for C7: on a cache holding the string key `"aa"`, the same
commit presented as a commit object is not seen. -/
theorem seen_commit_always_false_witness :
    (∀ kv ∈ stC7.commits, ∃ s, kv.1 = PyKey.str s) ∧
    seen_commit stC7 (PyKey.commitObj "aa") = false := by
  have hstr : ∀ kv ∈ stC7.commits, ∃ s, kv.1 = PyKey.str s := by
    intro kv hkv
    have hkv' : kv ∈ [(PyKey.str "aa", cRoot)] := hkv
    rcases List.mem_singleton.1 hkv' with rfl
    exact ⟨"aa", rfl⟩
  exact ⟨hstr, seen_commit_always_false.1 stC7 "aa" hstr⟩

/-! ## C8: root commits contribute no edges -/

/-- **C8.**  Processing a commit with no parents performs no analysis: the
state changes only by marking the commit done and firing `new_commit`
followed by `dependent_done` with the commit's recorded edge map — which is
empty (`[]`) whenever the graph holds no entry for it.  The dependency
graph, worklist and commit cache are untouched. -/
theorem root_commit_no_edges :
    ∀ (repo : Repo) (st : Detector) (c : Commit), c.parents = [] →
      process_popped repo st c = Except.ok
        { st with done := st.done ++ [c.id], done_d := dset st.done_d c.id,
                  events := st.events ++ [Event.new_commit c.id,
                    Event.dependent_done c.id
                      ((alget st.dependencies c.id).getD [])] } ∧
      (alget st.dependencies c.id = none →
        process_popped repo st c = Except.ok
          { st with done := st.done ++ [c.id], done_d := dset st.done_d c.id,
                    events := st.events ++ [Event.new_commit c.id,
                      Event.dependent_done c.id []] }) := by
  intro repo st c hp
  have heq : process_popped repo st c = Except.ok
      { st with done := st.done ++ [c.id], done_d := dset st.done_d c.id,
                events := st.events ++ [Event.new_commit c.id,
                  Event.dependent_done c.id
                    ((alget st.dependencies c.id).getD [])] } := by
    unfold process_popped
    simp only [bind, Except.bind, pure, Except.pure, Detector.notify]
    rw [hp]
    simp only [List.append_assoc, List.cons_append, List.nil_append]
  refine ⟨heq, fun hnone => ?_⟩
  rw [heq, hnone]
  rfl

/-- Witness for C8: processing the parentless `cRoot` from a fresh state
marks it done, records no edge, and fires `dependent_done "aa" []`. -/
theorem root_commit_no_edges_witness :
    cRoot.parents = [] ∧
    ∃ st', process_popped repoFix (initDetector optsFix) cRoot =
        Except.ok st' ∧ st'.dependencies = [] ∧ st'.done = ["aa"] ∧
      st'.todo = [] ∧
      st'.events = [Event.new_commit "aa", Event.dependent_done "aa" []] :=
  ⟨rfl, ⟨_, (root_commit_no_edges repoFix (initDetector optsFix) cRoot
    rfl).2 rfl, rfl, rfl, rfl, rfl⟩⟩

/-! ## C10: the worklist is strict FIFO -/

/-- A state queued with exactly the root commit. -/
def stC10 : Detector :=
  { initDetector optsFix with todo := [cRoot], todo_d := ["aa"] }

/-- **C10.**  The worklist is processed in strict FIFO order: the loop
always pops the head of the queue (and continues on the rest), every
enqueue of a newly discovered dependency appends to the tail, the seed
commit of `find_dependencies` is appended to the tail, and one full
iteration only ever appends to the queue. -/
theorem worklist_fifo :
    (∀ (repo : Repo) (fuel : Nat) (st : Detector) (c : Commit)
       (rest : List Commit),
       st.todo = c :: rest →
       st.todo_d.contains c.id = true →
       st.done_d.contains c.id = false →
       todo_loop repo (fuel + 1) st =
         (match process_popped repo
             { st with todo := rest, todo_d := st.todo_d.erase c.id } c with
         | .error e => RunResult.fatal e
         | .ok st2 => todo_loop repo fuel st2)) ∧
    (∀ (st : Detector) (dependent : Commit) (dependent_sha1 : String)
       (dependency : Commit) (dependency_sha1 path : String) (line_num : Nat)
       (st' : Detector),
       process_new_dependency st dependent dependent_sha1 dependency
         dependency_sha1 path line_num = Except.ok st' →
       st'.todo = st.todo ∨ st'.todo = st.todo ++ [dependency]) ∧
    (∀ (repo : Repo) (st : Detector) (rev : String) (recurse : Option Bool)
       (fuel : Nat) (c : Commit) (st0 : Detector),
       get_commit repo st rev = Except.ok (c, st0) →
       find_dependencies repo st rev recurse fuel =
         todo_loop repo fuel
           { st0 with todo := st0.todo ++ [c],
                      todo_d := dset st0.todo_d c.id }) ∧
    (∀ (H : List Commit) (repo : Repo) (st : Detector) (c : Commit)
       (st' : Detector),
       RepoWF H repo → CommitsWF H st →
       process_popped repo st c = Except.ok st' →
       ∃ extra, st'.todo = st.todo ++ extra) := by
  refine ⟨?_, ?_, ?_, ?_⟩
  · intro repo fuel st c rest htodo hc1 hc2
    simp only [todo_loop, htodo, hc1, if_true, hc2, Bool.false_eq_true,
      if_false]
  · intro st dependent dependent_sha1 dependency dependency_sha1 path
      line_num st' h
    exact process_new_dependency_todo h
  · intro repo st rev recurse fuel c st0 hgc
    unfold find_dependencies
    rw [hgc]
  · intro H repo st c st' hr hc h
    exact (process_popped_spec h hr hc).2.2.2.1

/-- Witness for C10: with `cRoot` queued alone, the loop pops it from the
head and continues on the emptied queue. -/
theorem worklist_fifo_witness :
    stC10.todo = cRoot :: [] ∧
    stC10.todo_d.contains cRoot.id = true ∧
    stC10.done_d.contains cRoot.id = false ∧
    todo_loop repoFix 3 stC10 =
      (match process_popped repoFix
          { stC10 with todo := [], todo_d := stC10.todo_d.erase cRoot.id }
          cRoot with
      | .error e => RunResult.fatal e
      | .ok st2 => todo_loop repoFix 2 st2) :=
  ⟨rfl, rfl, rfl, worklist_fifo.1 repoFix 2 stC10 cRoot [] rfl rfl rfl⟩

/-! ## C3: exclusion is merge-base ancestry -/

/-- Consistency of the commit cache's string keys with the backend: a cached
resolution is a real resolution. -/
def CommitsCacheOK (repo : Repo) (st : Detector) : Prop :=
  ∀ r c, alget st.commits (PyKey.str r) = some c → repo.refResolve r = some c

/-- Consistency of the memoization cache of `branch_contains` with the
backend's `merge-base` answers. -/
def BCCacheOK (repo : Repo) (st : Detector) : Prop :=
  ∀ sha row, alget st.branch_contains_cache sha = some row →
    ∀ bsha b, alget row bsha = some b →
      b = (repo.mergeBase sha bsha == sha)

/-- `branch_contains` computes exactly the memoized `merge-base` ancestry
test and preserves both cache-consistency invariants. -/
theorem branch_contains_sem {repo : Repo} {st : Detector} {commit : Commit}
    {branch : String} {bc : Commit}
    (hres : repo.refResolve branch = some bc)
    (hcc : CommitsCacheOK repo st) (hbc : BCCacheOK repo st) :
    ∃ st', branch_contains repo st commit branch =
        .ok ((repo.mergeBase commit.id bc.id == commit.id), st') ∧
      CommitsCacheOK repo st' ∧ BCCacheOK repo st' := by
  have hg : ∃ stg, get_commit repo st branch = .ok (bc, stg) ∧
      CommitsCacheOK repo stg ∧ BCCacheOK repo stg := by
    unfold get_commit
    rcases hcache : alget st.commits (PyKey.str branch) with _ | c0
    · rw [hres]
      refine ⟨_, rfl, ?_, hbc⟩
      intro r c h
      by_cases hrb : r = branch
      · subst hrb
        rw [alget_alset_self] at h
        cases h
        exact hres
      · rw [alget_alset_ne _ _ _ _ (fun he => hrb (PyKey.str.inj he))] at h
        exact hcc r c h
    · have h0 : repo.refResolve branch = some c0 := hcc _ _ hcache
      have h1 : some bc = some c0 := hres.symm.trans h0
      cases h1
      exact ⟨st, rfl, hcc, hbc⟩
  obtain ⟨stg, hg, hccg, hbcg⟩ := hg
  unfold branch_contains
  simp only [bind, Except.bind, pure, Except.pure]
  rw [hg]
  simp only []
  by_cases hhas : alhas stg.branch_contains_cache commit.id = true
  · simp only [hhas, if_true]
    obtain ⟨row0, hrow0⟩ := alget_isSome_of_alhas hhas
    rw [hrow0]
    simp only [Option.getD_some]
    rcases hmem : alget row0 bc.id with _ | memo
    · simp only []
      refine ⟨_, rfl, hccg, ?_⟩
      intro sha row hrow bsha b hb
      by_cases hs : sha = commit.id
      · subst hs
        rw [alget_alset_self] at hrow
        cases hrow
        by_cases hbs : bsha = bc.id
        · subst hbs
          rw [alget_alset_self] at hb
          cases hb
          rfl
        · rw [alget_alset_ne _ _ _ _ hbs] at hb
          exact hbcg commit.id row0 hrow0 bsha b hb
      · rw [alget_alset_ne _ _ _ _ hs] at hrow
        exact hbcg sha row hrow bsha b hb
    · simp only []
      have hmemo : memo = (repo.mergeBase commit.id bc.id == commit.id) :=
        hbcg commit.id row0 hrow0 bc.id memo hmem
      rw [hmemo]
      exact ⟨stg, rfl, hccg, hbcg⟩
  · rw [Bool.not_eq_true] at hhas
    simp only [hhas, Bool.false_eq_true, if_false]
    rw [alget_alset_self]
    simp only [Option.getD_some]
    have hnil : alget ([] : List (String × Bool)) bc.id = none := rfl
    rw [hnil]
    simp only []
    refine ⟨_, rfl, hccg, ?_⟩
    intro sha row hrow bsha b hb
    by_cases hs : sha = commit.id
    · subst hs
      rw [alget_alset_self] at hrow
      cases hrow
      by_cases hbs : bsha = bc.id
      · subst hbs
        rw [alget_alset_self] at hb
        cases hb
        rfl
      · rw [alget_alset_ne _ _ _ _ hbs] at hb
        exact Option.noConfusion (show (none : Option Bool) = some b from hb)
    · rw [alget_alset_ne _ _ _ _ hs, alget_alset_ne _ _ _ _ hs] at hrow
      exact hbcg sha row hrow bsha b hb

/-- The exclusion loop answers the disjunction of the memoized ancestry
tests over the configured excluded revisions. -/
theorem is_excluded_go_sem {repo : Repo} {commit : Commit} :
    ∀ (excludes : List String) (st : Detector),
      CommitsCacheOK repo st → BCCacheOK repo st →
      (∀ ex ∈ excludes, ∃ bc, repo.refResolve ex = some bc) →
      ∃ b st', is_excluded_go repo commit excludes st = .ok (b, st') ∧
        (b = true ↔ ∃ ex ∈ excludes, ∃ bc, repo.refResolve ex = some bc ∧
          repo.mergeBase commit.id bc.id = commit.id) := by
  intro excludes
  induction excludes with
  | nil =>
    intro st hcc hbc hresolve
    refine ⟨false, st, rfl, ?_⟩
    simp
  | cons ex rest ih =>
    intro st hcc hbc hresolve
    obtain ⟨bc, hbcres⟩ := hresolve ex (List.mem_cons_self _ _)
    obtain ⟨st1, hbcall, hcc1, hbc1⟩ := branch_contains_sem hbcres hcc hbc
    rcases hmb : repo.mergeBase commit.id bc.id == commit.id with _ | _
    · rw [hmb] at hbcall
      obtain ⟨b, st', hgo, hiff⟩ := ih st1 hcc1 hbc1
        (fun e he => hresolve e (List.mem_cons_of_mem _ he))
      refine ⟨b, st', ?_, ?_⟩
      · show (branch_contains repo st commit ex >>= fun p =>
          match p with
          | (b, st) => if b then pure (true, st)
            else is_excluded_go repo commit rest st) = Except.ok (b, st')
        rw [hbcall]
        simp only [bind, Except.bind, Bool.false_eq_true, if_false]
        exact hgo
      · rw [hiff]
        constructor
        · rintro ⟨e, he, bc', h1, h2⟩
          exact ⟨e, List.mem_cons_of_mem _ he, bc', h1, h2⟩
        · rintro ⟨e, he, bc', h1, h2⟩
          rcases List.mem_cons.1 he with rfl | he2
          · have : some bc = some bc' := hbcres.symm.trans h1
            cases this
            rw [h2] at hmb
            simp at hmb
          · exact ⟨e, he2, bc', h1, h2⟩
    · rw [hmb] at hbcall
      refine ⟨true, st1, ?_, ?_⟩
      · show (branch_contains repo st commit ex >>= fun p =>
          match p with
          | (b, st) => if b then pure (true, st)
            else is_excluded_go repo commit rest st) = Except.ok (true, st1)
        rw [hbcall]
        simp only [bind, Except.bind, if_true]
        rfl
      · constructor
        · intro _
          refine ⟨ex, List.mem_cons_self _ _, bc, hbcres, ?_⟩
          exact eq_of_beq hmb
        · intro _
          rfl

/-- **C3.**  When no exclusions are configured, `is_excluded` answers
`false` without touching the state.  With excluded revisions configured
(and caches consistent with the backend, every exclusion resolvable),
`is_excluded(candidate)` answers `true` exactly when some excluded boundary
`B` satisfies `merge_base(candidate, B) = candidate`.  And an excluded
candidate dependency is never recorded: `process_blame_hunk` then returns
with the dependency graph unchanged. -/
theorem is_excluded_ancestry_spec :
    (∀ (repo : Repo) (st : Detector) (commit : Commit),
       st.options.exclude_commits = none →
       is_excluded repo st commit = .ok (false, st)) ∧
    (∀ (repo : Repo) (st : Detector) (commit : Commit)
       (excludes : List String),
       st.options.exclude_commits = some excludes →
       CommitsCacheOK repo st → BCCacheOK repo st →
       (∀ ex ∈ excludes, ∃ bc, repo.refResolve ex = some bc) →
       ∃ b st', is_excluded repo st commit = .ok (b, st') ∧
         (b = true ↔ ∃ ex ∈ excludes, ∃ bc, repo.refResolve ex = some bc ∧
           repo.mergeBase commit.id bc.id = commit.id)) ∧
    (∀ (repo : Repo) (st : Detector) (dependent : Commit)
       (dependent_sha1 : String) (parent : Commit) (path : String)
       (bh : BlameHunk) (ltc : List (Nat × String)) (dep : Commit)
       (st1 st2 : Detector),
       get_commit repo st bh.orig_commit_id = Except.ok (dep, st1) →
       is_excluded repo st1 dep = Except.ok (true, st2) →
       ∃ ltc', process_blame_hunk repo st dependent dependent_sha1 parent
           path bh ltc = Except.ok (st2, ltc') ∧
         st2.dependencies = st.dependencies) := by
  refine ⟨?_, ?_, ?_⟩
  · intro repo st commit hnone
    unfold is_excluded
    rw [hnone]
  · intro repo st commit excludes hsome hcc hbc hresolve
    have h := @is_excluded_go_sem repo commit excludes st hcc hbc hresolve
    unfold is_excluded
    rw [hsome]
    exact h
  · intro repo st dependent dependent_sha1 parent path bh ltc dep st1 st2
      hgc hexc
    have heq : process_blame_hunk repo st dependent dependent_sha1 parent
        path bh ltc = Except.ok (st2,
          (List.range bh.lines_in_hunk).foldl
            (fun m i => alset m (bh.final_start_line_number + i) dep.id)
            ltc) := by
      unfold process_blame_hunk
      simp only [bind, Except.bind, pure, Except.pure]
      rw [hgc]
      simp only []
      rw [hexc]
      rfl
    have h1 : st1.dependencies = st.dependencies :=
      (get_commit_frame hgc).1.2.1
    have h2 : st2.dependencies = st1.dependencies :=
      (is_excluded_frame hexc).2.1
    exact ⟨_, heq, h2.trans h1⟩

/-- Options configured to exclude everything reachable from `"aa"`. -/
def optsEx : Options := { optsFix with exclude_commits := some ["aa"] }

/-- Witness for C3: with `"aa"` excluded in the fixture repo (whose
`merge-base a b` is `a`), the root commit is excluded, and the caches of a
fresh detector are trivially consistent. -/
theorem is_excluded_ancestry_spec_witness :
    CommitsCacheOK repoFix (initDetector optsEx) ∧
    BCCacheOK repoFix (initDetector optsEx) ∧
    (∀ ex ∈ ["aa"], ∃ bc, repoFix.refResolve ex = some bc) ∧
    (∃ b st', is_excluded repoFix (initDetector optsEx) cRoot =
        .ok (b, st') ∧
      (b = true ↔ ∃ ex ∈ ["aa"], ∃ bc, repoFix.refResolve ex = some bc ∧
        repoFix.mergeBase cRoot.id bc.id = cRoot.id)) := by
  have hcc : CommitsCacheOK repoFix (initDetector optsEx) := by
    intro r c h
    have h' : alget ([] : List (PyKey × Commit)) (PyKey.str r) = some c := h
    exact Option.noConfusion (show (none : Option Commit) = some c from h')
  have hbc : BCCacheOK repoFix (initDetector optsEx) := by
    intro sha row h
    have h' : alget ([] : List (String × List (String × Bool))) sha =
        some row := h
    exact Option.noConfusion
      (show (none : Option (List (String × Bool))) = some row from h')
  have hresolve : ∀ ex ∈ ["aa"], ∃ bc, repoFix.refResolve ex = some bc := by
    intro ex hex
    rcases List.mem_singleton.1 hex with rfl
    exact ⟨cRoot, rfl⟩
  exact ⟨hcc, hbc, hresolve, is_excluded_ancestry_spec.2.1 repoFix
    (initDetector optsEx) cRoot ["aa"] rfl hcc hbc hresolve⟩

end GitDeps
